import Mathlib

/-!
Verification of the Union-Find structure in `src/abc177/src/bin/d.rs` and the
segment tree in `src/abc185/src/bin/f.rs`.

The Rust code is embedded shallowly:
* `Vec<T>` becomes `List T`; in-place mutation becomes functional `List.set`.
* The closure field `f` of `SegmentTree` is passed explicitly to each
  operation instead of being stored, since nothing else depends on storing it.
* Loops are modelled by structurally recursive functions with an explicit
  fuel argument (so that they compute inside the kernel); each loop comes
  with a proved unfolding equation showing the fuel chosen by the wrapper is
  irrelevant as long as it is large enough, and the wrappers use a provably
  sufficient fuel.
* Rust indexing panics become `Option`-failures (`none`) where a claim needs
  to observe them (Union-Find); in the segment tree, where all claims keep
  indices in range, reads use `List.getD` with the tree's sentry as the
  (irrelevant) fallback.
-/

/-- Fuel-driven body of `nextPow2`; fuel `n` is enough (the argument halves). -/
def nextPow2Go : Nat → Nat → Nat
  | 0, _ => 1
  | fuel + 1, n => if n ≤ 1 then 1 else 2 * nextPow2Go fuel ((n + 1) / 2)

/-- `u64::next_power_of_two`: the least power of two that is `≥ n`
(and `1` for `n = 0`), via the identity `npot n = 2 * npot ⌈n/2⌉` for `n ≥ 2`. -/
def nextPow2 (n : Nat) : Nat := nextPow2Go n n

theorem nextPow2Go_fuel {f1 f2 n : Nat} (h1 : n ≤ f1) (h2 : n ≤ f2) :
    nextPow2Go f1 n = nextPow2Go f2 n := by
  induction f1 generalizing f2 n with
  | zero =>
      interval_cases n
      cases f2 with
      | zero => rfl
      | succ f2 => simp [nextPow2Go]
  | succ f1 ih =>
      cases f2 with
      | zero =>
          interval_cases n
          simp [nextPow2Go]
      | succ f2 =>
          by_cases hn : n ≤ 1
          · simp [nextPow2Go, hn]
          · have hm : (n + 1) / 2 ≤ f1 := by omega
            have hm2 : (n + 1) / 2 ≤ f2 := by omega
            simp only [nextPow2Go, hn, if_false]
            rw [ih hm hm2]

/-- The defining recurrence of `nextPow2`. -/
theorem nextPow2_eq (n : Nat) :
    nextPow2 n = if n ≤ 1 then 1 else 2 * nextPow2 ((n + 1) / 2) := by
  by_cases hn : n ≤ 1
  · interval_cases n <;> simp [nextPow2, nextPow2Go, hn]
  · show nextPow2Go n n = _
    cases n with
    | zero => omega
    | succ m =>
        simp only [nextPow2Go, hn, if_false, nextPow2]
        rw [@nextPow2Go_fuel m ((m + 1 + 1) / 2) ((m + 1 + 1) / 2) (by omega) le_rfl]

theorem le_nextPow2 (n : Nat) : n ≤ nextPow2 n := by
  induction n using Nat.strong_induction_on with
  | _ n ih =>
      rw [nextPow2_eq]
      by_cases hn : n ≤ 1
      · simp only [if_pos hn]; exact hn
      · simp only [hn, if_false]
        have := ih ((n + 1) / 2) (by omega)
        omega

theorem one_le_nextPow2 (n : Nat) : 1 ≤ nextPow2 n := by
  induction n using Nat.strong_induction_on with
  | _ n ih =>
      rw [nextPow2_eq]
      by_cases hn : n ≤ 1
      · simp [hn]
      · simp only [hn, if_false]
        have := ih ((n + 1) / 2) (by omega)
        omega

/-- The `SegmentTree<T, F>` struct (the combine closure `f` is passed to each
operation instead of being stored). -/
@[ext]
structure SegmentTree (T : Type) where
  size : Nat
  buf : List T
  sentry : T
deriving DecidableEq

namespace SegmentTree

variable {T : Type}

/-- `SegmentTree::new(size, init, f)`. -/
def new (size : Nat) (init : T) : SegmentTree T :=
  let sz := nextPow2 size
  { size := sz, buf := List.replicate (sz * 2) init, sentry := init }

/-- The loop `for i in (1..pw2).rev() { buf[i] = f(buf[i*2], buf[i*2+1]) }`
of `from_vec`; `buildDown f buf s i` performs the writes at `i, i-1, …, 1`. -/
def buildDown (f : T → T → T) (buf : List T) (s : T) : Nat → List T
  | 0 => buf
  | i + 1 =>
      buildDown f (buf.set (i + 1) (f (buf.getD ((i + 1) * 2) s) (buf.getD ((i + 1) * 2 + 1) s))) s i

/-- `SegmentTree::from_vec(other, init, f)`. -/
def fromVec (other : List T) (init : T) (f : T → T → T) : SegmentTree T :=
  let pw2 := nextPow2 other.length
  let padded := other ++ List.replicate (pw2 - other.length) init
  let buf := List.replicate pw2 init ++ padded
  { size := pw2, buf := buildDown f buf init (pw2 - 1), sentry := init }

/-- Fuel-driven body of the `while i > 1 { i /= 2; buf[i] = f(buf[i*2], buf[i*2+1]) }`
loop of `update`. -/
def upLoopGo (f : T → T → T) (s : T) : Nat → List T → Nat → List T
  | 0, buf, _ => buf
  | fuel + 1, buf, i =>
      if 1 < i then
        let j := i / 2
        upLoopGo f s fuel (buf.set j (f (buf.getD (j * 2) s) (buf.getD (j * 2 + 1) s))) j
      else buf

/-- The update loop with sufficient fuel. -/
def upLoop (f : T → T → T) (s : T) (buf : List T) (i : Nat) : List T :=
  upLoopGo f s i buf i

theorem upLoopGo_fuel (f : T → T → T) (s : T) {f1 f2 : Nat} (buf : List T) {i : Nat}
    (h1 : i ≤ f1) (h2 : i ≤ f2) : upLoopGo f s f1 buf i = upLoopGo f s f2 buf i := by
  induction f1 generalizing f2 buf i with
  | zero =>
      interval_cases i
      cases f2 with
      | zero => rfl
      | succ f2 => simp [upLoopGo]
  | succ f1 ih =>
      cases f2 with
      | zero =>
          interval_cases i
          simp [upLoopGo]
      | succ f2 =>
          by_cases hi : 1 < i
          · simp only [upLoopGo, hi, if_true]
            exact ih _ (by omega) (by omega)
          · simp [upLoopGo, hi]

/-- The defining equation of the update loop. -/
theorem upLoop_eq (f : T → T → T) (s : T) (buf : List T) (i : Nat) :
    upLoop f s buf i =
      if 1 < i then
        upLoop f s (buf.set (i / 2) (f (buf.getD (i / 2 * 2) s) (buf.getD (i / 2 * 2 + 1) s))) (i / 2)
      else buf := by
  by_cases hi : 1 < i
  · show upLoopGo f s i buf i = _
    cases i with
    | zero => omega
    | succ m =>
        simp only [upLoopGo, hi, if_true, upLoop]
        exact upLoopGo_fuel f s _ (by omega) le_rfl
  · cases i with
    | zero => simp [upLoop, upLoopGo, hi]
    | succ m => simp [upLoop, upLoopGo, hi]

/-- `SegmentTree::update(index, value)`. -/
def update (f : T → T → T) (t : SegmentTree T) (index : Nat) (value : T) : SegmentTree T :=
  let i := index + t.size
  { t with buf := upLoop f t.sentry (t.buf.set i value) i }

/-- Fuel-driven body of the `while left < right { … }` loop of `query`. -/
def queryLoopGo (f : T → T → T) (buf : List T) (s : T) : Nat → T → Nat → Nat → T
  | 0, v, _, _ => v
  | fuel + 1, v, left, right =>
      if left < right then
        let v1 := if left % 2 = 1 then f v (buf.getD left s) else v
        let left1 := if left % 2 = 1 then left + 1 else left
        let v2 := if right % 2 = 1 then f v1 (buf.getD (right - 1) s) else v1
        let right1 := if right % 2 = 1 then right - 1 else right
        queryLoopGo f buf s fuel v2 (left1 / 2) (right1 / 2)
      else v

/-- The query loop with sufficient fuel. -/
def queryLoop (f : T → T → T) (buf : List T) (s : T) (v : T) (left right : Nat) : T :=
  queryLoopGo f buf s right v left right

theorem queryLoopGo_fuel (f : T → T → T) (buf : List T) (s : T) {f1 f2 : Nat} {v : T}
    {left right : Nat} (h1 : right ≤ f1) (h2 : right ≤ f2) :
    queryLoopGo f buf s f1 v left right = queryLoopGo f buf s f2 v left right := by
  induction f1 generalizing f2 v left right with
  | zero =>
      interval_cases right
      cases f2 with
      | zero => rfl
      | succ f2 => simp [queryLoopGo]
  | succ f1 ih =>
      cases f2 with
      | zero =>
          interval_cases right
          simp [queryLoopGo]
      | succ f2 =>
          by_cases hlr : left < right
          · simp only [queryLoopGo, hlr, if_true]
            apply ih <;> split <;> omega
          · simp [queryLoopGo, hlr]

/-- The defining equation of the query loop. -/
theorem queryLoop_eq (f : T → T → T) (buf : List T) (s : T) (v : T) (left right : Nat) :
    queryLoop f buf s v left right =
      if left < right then
        let v1 := if left % 2 = 1 then f v (buf.getD left s) else v
        let left1 := if left % 2 = 1 then left + 1 else left
        let v2 := if right % 2 = 1 then f v1 (buf.getD (right - 1) s) else v1
        let right1 := if right % 2 = 1 then right - 1 else right
        queryLoop f buf s v2 (left1 / 2) (right1 / 2)
      else v := by
  by_cases hlr : left < right
  · show queryLoopGo f buf s right v left right = _
    cases right with
    | zero => omega
    | succ m =>
        simp only [queryLoopGo, hlr, if_true, queryLoop]
        apply queryLoopGo_fuel <;> split <;> omega
  · cases right with
    | zero => simp [queryLoop, queryLoopGo, hlr]
    | succ m => simp [queryLoop, queryLoopGo, hlr]

/-- `SegmentTree::query(start..stop)`. -/
def query (f : T → T → T) (t : SegmentTree T) (start stop : Nat) : T :=
  queryLoop f t.buf t.sentry t.sentry (start + t.size) (stop + t.size)

/-- `SegmentTree::get(index)`. -/
def get (t : SegmentTree T) (index : Nat) : T :=
  t.buf.getD (index + t.size) t.sentry

/-- Building a tree by `new(values.len(), init, f)` followed by
`update(i, values[i])` for `i = 0, …, values.len() - 1` (the reference
construction that claim C2 compares `from_vec` against). -/
def buildByUpdates (values : List T) (init : T) (f : T → T → T) : SegmentTree T :=
  (List.range values.length).foldl (fun t i => update f t i (values.getD i init))
    (new values.length init)

end SegmentTree

/-- `UnionResult`. -/
inductive UnionResult where
  | unified
  | alreadyUnified
deriving DecidableEq

/-- The `UnionFind` struct: `parent: Vec<Option<usize>>`, `size: Vec<usize>`. -/
@[ext]
structure UnionFind where
  parent : List (Option Nat)
  size : List Nat
deriving DecidableEq

namespace UnionFind

/-- `UnionFind::new(n)`. -/
def new (n : Nat) : UnionFind :=
  { parent := List.replicate n none, size := List.replicate n 1 }

/-- The `loop` of `UnionFind::root`, with fuel.  `none` models both a panic
(out-of-bounds read of `parent`) and fuel exhaustion; on well-formed states
fuel `parent.length` never runs out (proved below). -/
def rootGo (parent : List (Option Nat)) : Nat → Nat → Option Nat
  | 0, _ => none
  | fuel + 1, curr =>
      match parent[curr]? with
      | none => none
      | some none => some curr
      | some (some p) => rootGo parent fuel p

/-- `UnionFind::root(x)` (read-only walk to the representative). -/
def root (u : UnionFind) (x : Nat) : Option Nat :=
  rootGo u.parent u.parent.length x

/-- The `loop` of `UnionFind::root_with_optimize`, with fuel: each iteration
executes `self.parent[x] = Some(parent)` for the walk's *starting* node `x`
and then steps to `parent`.  Returns the updated parent array and the root. -/
def rootOptGo (x : Nat) : Nat → List (Option Nat) → Nat → Option (List (Option Nat) × Nat)
  | 0, _, _ => none
  | fuel + 1, parent, curr =>
      match parent[curr]? with
      | none => none
      | some none => some (parent, curr)
      | some (some p) => rootOptGo x fuel (parent.set x (some p)) p

/-- `UnionFind::union(x, y)`; `none` models a panic. -/
def union (u : UnionFind) (x y : Nat) : Option (UnionFind × UnionResult) :=
  if x = y then some (u, .alreadyUnified)
  else
    match rootOptGo x u.parent.length u.parent x with
    | none => none
    | some (p1, rx) =>
        match rootOptGo y u.parent.length p1 y with
        | none => none
        | some (p2, ry) =>
            if rx = ry then some ({ parent := p2, size := u.size }, .alreadyUnified)
            else
              match u.size[rx]?, u.size[ry]? with
              | some sx, some sy =>
                  let large := if sy ≤ sx then rx else ry
                  let small := if sy ≤ sx then ry else rx
                  let sl := if sy ≤ sx then sx else sy
                  let ss := if sy ≤ sx then sy else sx
                  some ({ parent := p2.set small (some large),
                          size := u.size.set large (sl + ss) }, .unified)
              | _, _ => none

/-- `UnionFind::equiv(x, y)`. -/
def equiv (u : UnionFind) (x y : Nat) : Option Bool :=
  match u.root x, u.root y with
  | some a, some b => some (a == b)
  | _, _ => none

/-- `UnionFind::size(x)` (named `sizeOfElem` because the structure field is
already called `size`). -/
def sizeOfElem (u : UnionFind) (x : Nat) : Option Nat :=
  u.size[x]?

/-- The number of elements whose representative is `r`. -/
def rootCount (u : UnionFind) (r : Nat) : Nat :=
  (List.range u.parent.length).countP (fun i => u.root i == some r)

/-- The forest invariant: `parent` and `size` have the same length, every
element reaches a root (in particular the parent graph is acyclic and all
parent links are in bounds), and for every root `r`, `size[r]` counts the
elements whose root is `r`. -/
def wf (u : UnionFind) : Prop :=
  u.size.length = u.parent.length ∧
  (∀ i, i < u.parent.length → (u.root i).isSome) ∧
  (∀ r, r < u.parent.length → u.parent[r]? = some none →
    u.size.getD r 0 = rootCount u r)

instance (u : UnionFind) : Decidable u.wf := by
  unfold wf; infer_instance

end UnionFind

/-! ### List helper lemmas -/

theorem getD_set_eq {α : Type _} (l : List α) (i : Nat) (a d : α) (h : i < l.length) :
    (l.set i a).getD i d = a := by
  rw [List.getD_eq_getD_get?]
  rw [show (l.set i a).get? i = some a from by
    simp [List.get?_eq_getElem?, List.getElem?_set_self, h]]
  rfl

theorem getD_set_ne {α : Type _} (l : List α) {i j : Nat} (a d : α) (h : i ≠ j) :
    (l.set i a).getD j d = l.getD j d := by
  simp [List.getD_eq_getD_get?, List.getElem?_set_ne h]

theorem getD_replicate_lt {α : Type _} {n i : Nat} (a d : α) (h : i < n) :
    (List.replicate n a).getD i d = a := by
  simp [List.getD_eq_getD_get?, List.getElem?_replicate, h]

/-- Division of the halved argument: `(i / 2) / 2 ^ m = i / 2 ^ (m + 1)`. -/
theorem div_two_pow_succ (i m : Nat) : i / 2 / 2 ^ m = i / 2 ^ (m + 1) := by
  rw [Nat.div_div_eq_div_mul, pow_succ, mul_comm (2 ^ m) 2, ← Nat.div_div_eq_div_mul]

namespace SegmentTree

variable {T : Type}

/-- The segment-tree invariant: every internal node `j ∈ [1, size)` holds the
combine of its two children. -/
def nodeInv (f : T → T → T) (t : SegmentTree T) : Prop :=
  ∀ j, j < t.size → 1 ≤ j →
    t.buf.getD j t.sentry = f (t.buf.getD (j * 2) t.sentry) (t.buf.getD (j * 2 + 1) t.sentry)

instance (f : T → T → T) (t : SegmentTree T) [DecidableEq T] : Decidable (nodeInv f t) := by
  unfold nodeInv; infer_instance

theorem upLoop_length (f : T → T → T) (s : T) (buf : List T) (i : Nat) :
    (upLoop f s buf i).length = buf.length := by
  induction i using Nat.strong_induction_on generalizing buf with
  | _ i ih =>
      rw [upLoop_eq]
      by_cases hi : 1 < i
      · simp only [hi, if_true]
        rw [ih (i / 2) (by omega)]
        simp
      · simp [hi]

/-- The update loop writes only at the proper ancestors `i / 2 ^ m` (`m ≥ 1`)
of its starting position `i`; position `0` is also never written. -/
theorem upLoop_getD_frame (f : T → T → T) (s : T) (buf : List T) (i p : Nat)
    (hp : p = 0 ∨ ∀ m, 1 ≤ m → p ≠ i / 2 ^ m) :
    (upLoop f s buf i).getD p s = buf.getD p s := by
  induction i using Nat.strong_induction_on generalizing buf with
  | _ i ih =>
      rw [upLoop_eq]
      by_cases hi : 1 < i
      · simp only [hi, if_true]
        have hp2 : p ≠ i / 2 := by
          rcases hp with hp | hp
          · omega
          · have := hp 1 le_rfl
            simpa using this
        have hanc : p = 0 ∨ ∀ m, 1 ≤ m → p ≠ i / 2 / 2 ^ m := by
          rcases hp with hp | hp
          · exact Or.inl hp
          · refine Or.inr fun m hm h => ?_
            rw [div_two_pow_succ] at h
            exact hp (m + 1) (by omega) h
        rw [ih (i / 2) (by omega) _ hanc, getD_set_ne _ _ _ (by omega)]
      · simp [hi]

/-- After the update loop, every ancestor `i / 2 ^ (m + 1) ≥ 1` of the
starting position holds the combine of its two children. -/
theorem upLoop_path (f : T → T → T) (s : T) (buf : List T) (i : Nat)
    (hlen : i < buf.length) :
    ∀ m, 1 ≤ i / 2 ^ (m + 1) →
      (upLoop f s buf i).getD (i / 2 ^ (m + 1)) s
        = f ((upLoop f s buf i).getD (i / 2 ^ (m + 1) * 2) s)
            ((upLoop f s buf i).getD (i / 2 ^ (m + 1) * 2 + 1) s) := by
  induction i using Nat.strong_induction_on generalizing buf with
  | _ i ih =>
      intro m hm
      by_cases hi : 1 < i
      · have hj1 : 1 ≤ i / 2 := by omega
        have hjlt : i / 2 < i := by omega
        have hjlen : i / 2 < buf.length := by omega
        rw [upLoop_eq]; simp only [hi, if_true]
        set buf' := buf.set (i / 2) (f (buf.getD (i / 2 * 2) s) (buf.getD (i / 2 * 2 + 1) s))
          with hbuf'
        have hlen' : i / 2 < buf'.length := by simpa [hbuf'] using hjlen
        cases m with
        | zero =>
            -- the node written in this iteration: `i / 2`
            have hfr : ∀ q, i / 2 < q →
                (upLoop f s buf' (i / 2)).getD q s = buf'.getD q s := by
              intro q hq
              refine upLoop_getD_frame f s buf' (i / 2) q (Or.inr fun m' hm' hEq => ?_)
              have : i / 2 / 2 ^ m' ≤ i / 2 := Nat.div_le_self _ _
              omega
            have hnode : (upLoop f s buf' (i / 2)).getD (i / 2) s = buf'.getD (i / 2) s := by
              refine upLoop_getD_frame f s buf' (i / 2) _ (Or.inr fun m' hm' hEq => ?_)
              have h2 : i / 2 / 2 ^ m' < i / 2 :=
                Nat.div_lt_self (by omega) (Nat.one_lt_pow (by omega) (by omega))
              omega
            rw [pow_one]
            rw [hnode, hfr _ (by omega), hfr _ (by omega)]
            rw [hbuf']
            rw [getD_set_eq _ _ _ _ hjlen,
              getD_set_ne _ _ _ (by omega), getD_set_ne _ _ _ (by omega)]
        | succ m' =>
            have := ih (i / 2) hjlt buf' hlen' m'
              (by rw [div_two_pow_succ]; exact hm)
            rw [div_two_pow_succ] at this
            exact this
      · exfalso
        have : i / 2 ^ (m + 1) ≤ i / 2 := by
          rw [← div_two_pow_succ]
          exact Nat.div_le_self _ _
        omega

theorem buildDown_length (f : T → T → T) (buf : List T) (s : T) (i : Nat) :
    (buildDown f buf s i).length = buf.length := by
  induction i generalizing buf with
  | zero => rfl
  | succ i ih => rw [buildDown, ih]; simp

/-- The build loop of `from_vec` writes only at positions `1, …, i`. -/
theorem buildDown_getD_frame (f : T → T → T) (buf : List T) (s d : T) (i p : Nat)
    (hp : p = 0 ∨ i < p) :
    (buildDown f buf s i).getD p d = buf.getD p d := by
  induction i generalizing buf with
  | zero => rfl
  | succ i ih =>
      rw [buildDown, ih _ (by omega), getD_set_ne _ _ _ (by omega)]

/-- After the build loop ran from `i` down to `1`, every position `j ∈ [1, i]`
holds the combine of its two children. -/
theorem buildDown_inv (f : T → T → T) (buf : List T) (s : T) (i : Nat)
    (hlen : i < buf.length) :
    ∀ j, 1 ≤ j → j ≤ i →
      (buildDown f buf s i).getD j s
        = f ((buildDown f buf s i).getD (j * 2) s) ((buildDown f buf s i).getD (j * 2 + 1) s) := by
  induction i generalizing buf with
  | zero => omega
  | succ i ih =>
      intro j hj1 hji
      rw [buildDown]
      rcases Nat.lt_or_ge j (i + 1) with hj | hj
      · exact ih _ (by simpa using by omega) j hj1 (by omega)
      · have hj' : j = i + 1 := by omega
        subst hj'
        rw [buildDown_getD_frame _ _ _ _ _ _ (by omega),
          buildDown_getD_frame _ _ _ _ _ _ (by omega),
          buildDown_getD_frame _ _ _ _ _ _ (by omega)]
        rw [getD_set_eq _ _ _ _ (by omega),
          getD_set_ne _ _ _ (by omega), getD_set_ne _ _ _ (by omega)]

/-! ### Facts about `new` -/

theorem new_size (size : Nat) (init : T) : (new size init).size = nextPow2 size := rfl

theorem new_sentry (size : Nat) (init : T) : (new size init).sentry = init := rfl

theorem new_buf_length (size : Nat) (init : T) :
    (new size init).buf.length = nextPow2 size * 2 := by
  simp [new]

theorem new_getD (size : Nat) (init d : T) (p : Nat) (hp : p < nextPow2 size * 2) :
    (new size init).buf.getD p d = init :=
  getD_replicate_lt _ _ hp

/-- `new` satisfies the node invariant iff the padding cells combine to
themselves; the invariant holds whenever `f init init = init`. -/
theorem new_nodeInv (size : Nat) (init : T) (f : T → T → T) (h : f init init = init) :
    nodeInv f (new size init) := by
  intro j hj hj1
  rw [new_size] at hj
  rw [new_sentry, new_getD _ _ _ _ (by omega), new_getD _ _ _ _ (by omega),
    new_getD _ _ _ _ (by omega), h]

/-! ### Facts about `fromVec` -/

theorem fromVec_size (values : List T) (init : T) (f : T → T → T) :
    (fromVec values init f).size = nextPow2 values.length := rfl

theorem fromVec_sentry (values : List T) (init : T) (f : T → T → T) :
    (fromVec values init f).sentry = init := rfl

theorem fromVec_buf_length (values : List T) (init : T) (f : T → T → T) :
    (fromVec values init f).buf.length = nextPow2 values.length * 2 := by
  have h := le_nextPow2 values.length
  simp [fromVec, buildDown_length]
  omega

/-- The leaves of `fromVec`: position `pw2 + k` holds `values[k]` for
`k < values.length`. -/
theorem fromVec_leaf_val (values : List T) (init d : T) (f : T → T → T) (k : Nat)
    (hk : k < values.length) :
    (fromVec values init f).buf.getD (nextPow2 values.length + k) d = values.getD k d := by
  have hle := le_nextPow2 values.length
  have h1 := one_le_nextPow2 values.length
  show (buildDown f _ init _).getD _ d = _
  rw [buildDown_getD_frame _ _ _ _ _ _ (by omega)]
  rw [List.getD_append_right _ _ _ _ (by simp), List.length_replicate]
  rw [show nextPow2 values.length + k - nextPow2 values.length = k from by omega]
  rw [List.getD_append _ _ _ _ hk]

/-- The leaves of `fromVec`: position `pw2 + k` holds `init` for
`values.length ≤ k < pw2` (the padding produced by `resize`). -/
theorem fromVec_leaf_pad (values : List T) (init d : T) (f : T → T → T) (k : Nat)
    (hk : values.length ≤ k) (hk2 : k < nextPow2 values.length) :
    (fromVec values init f).buf.getD (nextPow2 values.length + k) d = init := by
  have h1 := one_le_nextPow2 values.length
  show (buildDown f _ init _).getD _ d = _
  rw [buildDown_getD_frame _ _ _ _ _ _ (by omega)]
  rw [List.getD_append_right _ _ _ _ (by simp), List.length_replicate]
  rw [show nextPow2 values.length + k - nextPow2 values.length = k from by omega]
  rw [List.getD_append_right _ _ _ _ (by omega)]
  exact getD_replicate_lt _ _ (by omega)

/-- Position `0` of the buffer is never written by the build loop. -/
theorem fromVec_getD_zero (values : List T) (init d : T) (f : T → T → T) :
    (fromVec values init f).buf.getD 0 d = init := by
  have h1 := one_le_nextPow2 values.length
  show (buildDown f _ init _).getD _ d = _
  rw [buildDown_getD_frame _ _ _ _ _ _ (Or.inl rfl)]
  rw [List.getD_append _ _ _ _ (by simpa using h1)]
  exact getD_replicate_lt _ _ h1

/-- `from_vec` establishes the node invariant unconditionally. -/
theorem fromVec_nodeInv (values : List T) (init : T) (f : T → T → T) :
    nodeInv f (fromVec values init f) := by
  intro j hj hj1
  rw [fromVec_size] at hj
  have h1 := one_le_nextPow2 values.length
  have hle := le_nextPow2 values.length
  show (buildDown f _ init _).getD _ _ = _
  refine buildDown_inv f _ init _ ?_ j hj1 (by omega)
  simp
  omega

/-! ### Facts about `update` -/

theorem update_size (f : T → T → T) (t : SegmentTree T) (index : Nat) (value : T) :
    (update f t index value).size = t.size := rfl

theorem update_sentry (f : T → T → T) (t : SegmentTree T) (index : Nat) (value : T) :
    (update f t index value).sentry = t.sentry := rfl

theorem update_buf_length (f : T → T → T) (t : SegmentTree T) (index : Nat) (value : T) :
    (update f t index value).buf.length = t.buf.length := by
  show (upLoop _ _ _ _).length = _
  rw [upLoop_length]; simp

/-- `update` writes only the leaf `index + size` and its ancestors
`(index + size) / 2 ^ m`. -/
theorem update_getD_frame (f : T → T → T) (t : SegmentTree T) (index : Nat) (value : T)
    (p : Nat) (hp : ∀ m : Nat, p ≠ (index + t.size) / 2 ^ m) :
    (update f t index value).buf.getD p t.sentry = t.buf.getD p t.sentry := by
  show (upLoop _ _ _ _).getD _ _ = _
  rw [upLoop_getD_frame _ _ _ _ _ (Or.inr fun m _ => hp m)]
  refine getD_set_ne _ _ _ ?_
  have h0 : p ≠ index + t.size := by simpa using hp 0
  omega

/-- After `update(index, value)` the leaf `index + size` holds `value`. -/
theorem update_leaf_self (f : T → T → T) (t : SegmentTree T) (index : Nat) (value : T)
    (hidx : index < t.size) (hlen : t.buf.length = 2 * t.size) :
    (update f t index value).buf.getD (index + t.size) t.sentry = value := by
  show (upLoop _ _ _ _).getD _ _ = _
  rw [upLoop_getD_frame _ _ _ _ _ (Or.inr fun m hm => ?_)]
  · exact getD_set_eq _ _ _ _ (by simp [hlen]; omega)
  · intro h
    have : (index + t.size) / 2 ^ m < index + t.size :=
      Nat.div_lt_self (by omega) (Nat.one_lt_pow (by omega) (by omega))
    omega

/-- `update` never writes buffer position `0`. -/
theorem update_getD_zero (f : T → T → T) (t : SegmentTree T) (index : Nat) (value : T)
    (hsz : 1 ≤ t.size) :
    (update f t index value).buf.getD 0 t.sentry = t.buf.getD 0 t.sentry := by
  show (upLoop _ _ _ _).getD _ _ = _
  rw [upLoop_getD_frame _ _ _ _ _ (Or.inl rfl)]
  exact getD_set_ne _ _ _ (by omega)

/-- Dividing by `2 ^ m` and then by `2` is dividing by `2 ^ (m + 1)`. -/
theorem div_pow_div_two (i m : Nat) : i / 2 ^ m / 2 = i / 2 ^ (m + 1) := by
  rw [Nat.div_div_eq_div_mul, pow_succ]

/-- `update` preserves the node invariant (for an in-range index). -/
theorem update_nodeInv (f : T → T → T) (t : SegmentTree T) (index : Nat) (value : T)
    (hInv : nodeInv f t) (hidx : index < t.size) (hlen : t.buf.length = 2 * t.size) :
    nodeInv f (update f t index value) := by
  intro j hj hj1
  rw [update_size] at hj
  rw [update_sentry]
  have hszpos : 1 ≤ t.size := by omega
  by_cases hpath : ∃ m : Nat, j = (index + t.size) / 2 ^ (m + 1)
  · obtain ⟨m, hm⟩ := hpath
    subst hm
    show (upLoop f t.sentry _ _).getD _ _ = _
    exact upLoop_path f t.sentry _ _ (by simp [hlen]; omega) m hj1
  · push_neg at hpath
    have hframe : ∀ p, (∀ m : Nat, p ≠ (index + t.size) / 2 ^ m) →
        (update f t index value).buf.getD p t.sentry = t.buf.getD p t.sentry :=
      fun p hp => update_getD_frame f t index value p hp
    have hj' : ∀ m : Nat, j ≠ (index + t.size) / 2 ^ m := by
      intro m
      cases m with
      | zero => simp; omega
      | succ m' => exact hpath m'
    have hc1 : ∀ m : Nat, j * 2 ≠ (index + t.size) / 2 ^ m := by
      intro m h
      cases m with
      | zero =>
          simp at h
          exact hpath 0 (by omega)
      | succ m' =>
          apply hpath (m' + 1)
          have : j * 2 / 2 = (index + t.size) / 2 ^ (m' + 1) / 2 := by rw [h]
          rwa [Nat.mul_div_cancel _ (by omega), div_pow_div_two] at this
    have hc2 : ∀ m : Nat, j * 2 + 1 ≠ (index + t.size) / 2 ^ m := by
      intro m h
      cases m with
      | zero =>
          simp at h
          exact hpath 0 (by omega)
      | succ m' =>
          apply hpath (m' + 1)
          have : (j * 2 + 1) / 2 = (index + t.size) / 2 ^ (m' + 1) / 2 := by rw [h]
          rwa [show (j * 2 + 1) / 2 = j from by omega, div_pow_div_two] at this
    rw [hframe j hj', hframe _ hc1, hframe _ hc2]
    exact hInv j hj hj1

/-- The empty-range query exits the loop immediately and yields the sentry,
whatever the combine function is. -/
theorem query_empty (f : T → T → T) (t : SegmentTree T) (a : Nat) :
    query f t a a = t.sentry := by
  show queryLoop _ _ _ _ _ _ = _
  rw [queryLoop_eq]
  simp

/-- Two trees with the same size, sentry, leaves and root cell that both obey
the node invariant have identical buffers. -/
theorem buf_eq_of_nodeInv (f : T → T → T) (t1 t2 : SegmentTree T)
    (hsz : t1.size = t2.size)
    (hlen1 : t1.buf.length = 2 * t1.size) (hlen2 : t2.buf.length = 2 * t2.size)
    (h1 : nodeInv f t1) (h2 : nodeInv f t2)
    (hleaf : ∀ k, k < t1.size → t1.buf.getD (t1.size + k) t1.sentry
      = t2.buf.getD (t2.size + k) t2.sentry)
    (hzero : t1.buf.getD 0 t1.sentry = t2.buf.getD 0 t2.sentry) :
    t1.buf = t2.buf := by
  have key : ∀ d p, p < 2 * t1.size → 2 * t1.size - p ≤ d →
      t1.buf.getD p t1.sentry = t2.buf.getD p t2.sentry := by
    intro d
    induction d with
    | zero => omega
    | succ d ih =>
        intro p hp hd
        rcases Nat.eq_zero_or_pos p with hp0 | hp0
        · subst hp0; exact hzero
        rcases Nat.lt_or_ge p t1.size with hplt | hpge
        · rw [h1 p hplt hp0, h2 p (by omega) hp0]
          rw [ih (p * 2) (by omega) (by omega), ih (p * 2 + 1) (by omega) (by omega)]
        · have hleafp := hleaf (p - t1.size) (by omega)
          rw [show t1.size + (p - t1.size) = p from by omega] at hleafp
          rw [hleafp, show t2.size + (p - t1.size) = p from by omega]
  have hlen : t1.buf.length = t2.buf.length := by omega
  apply List.ext_getElem hlen
  intro p hp1 hp2
  have := key (2 * t1.size) p (by omega) (by omega)
  rwa [List.getD_eq_getElem _ _ hp1, List.getD_eq_getElem _ _ hp2] at this

/-- The first `m` updates of `buildByUpdates`. -/
def buildPrefix (values : List T) (init : T) (f : T → T → T) (m : Nat) : SegmentTree T :=
  (List.range m).foldl (fun t i => update f t i (values.getD i init)) (new values.length init)

theorem buildPrefix_succ (values : List T) (init : T) (f : T → T → T) (m : Nat) :
    buildPrefix values init f (m + 1)
      = update f (buildPrefix values init f m) m (values.getD m init) := by
  rw [buildPrefix, List.range_succ, List.foldl_append]
  rfl

theorem buildByUpdates_eq_buildPrefix (values : List T) (init : T) (f : T → T → T) :
    buildByUpdates values init f = buildPrefix values init f values.length := rfl

/-- State of the tree after the first `m` updates of `buildByUpdates`:
leaves `0, …, m-1` hold the values, the remaining cells are as in `new`,
and (given `f init init = init`) the node invariant holds throughout. -/
theorem buildPrefix_spec (values : List T) (init : T) (f : T → T → T)
    (hf : f init init = init) :
    ∀ m, m ≤ values.length →
      (buildPrefix values init f m).size = nextPow2 values.length ∧
      (buildPrefix values init f m).sentry = init ∧
      (buildPrefix values init f m).buf.length = 2 * (buildPrefix values init f m).size ∧
      nodeInv f (buildPrefix values init f m) ∧
      (buildPrefix values init f m).buf.getD 0 init = init ∧
      (∀ k, k < (buildPrefix values init f m).size →
        (buildPrefix values init f m).buf.getD ((buildPrefix values init f m).size + k) init
          = if k < m then values.getD k init else init) := by
  intro m
  induction m with
  | zero =>
      intro _
      have h1 := one_le_nextPow2 values.length
      rw [show buildPrefix values init f 0 = new values.length init from rfl]
      refine ⟨rfl, rfl, ?_, new_nodeInv _ _ _ hf, ?_, ?_⟩
      · rw [new_buf_length, new_size]; omega
      · exact new_getD _ _ _ _ (by omega)
      · intro k hk
        rw [new_size] at hk
        rw [if_neg (by omega), new_size]
        exact new_getD _ _ _ _ (by omega)
  | succ m ih =>
      intro hm
      obtain ⟨hsz, hsent, hlen, hinv, hzero, hleaf⟩ := ih (by omega)
      have hmlt : m < (buildPrefix values init f m).size := by
        rw [hsz]
        have := le_nextPow2 values.length
        omega
      have hszpos : 1 ≤ (buildPrefix values init f m).size := by omega
      rw [buildPrefix_succ]
      set t := buildPrefix values init f m with ht
      refine ⟨by rw [update_size, hsz], by rw [update_sentry, hsent], ?_, ?_, ?_, ?_⟩
      · rw [update_size, update_buf_length, hlen]
      · exact update_nodeInv f t m _ hinv hmlt hlen
      · have := update_getD_zero f t m (values.getD m init) hszpos
        rw [hsent] at this
        rw [this, hzero]
      · intro k hk
        rw [update_size] at hk
        rw [update_size]
        rcases eq_or_ne k m with hkm | hkm
        · subst hkm
          have := update_leaf_self f t k (values.getD k init) hmlt hlen
          rw [hsent] at this
          rw [show t.size + k = k + t.size from by omega, this, if_pos (by omega)]
        · have hfr : ∀ mm : Nat, t.size + k ≠ (m + t.size) / 2 ^ mm := by
            intro mm
            cases mm with
            | zero => simpa using by omega
            | succ mm' =>
                have h2 : (m + t.size) / 2 ^ (mm' + 1) ≤ (m + t.size) / 2 :=
                  by
                    rw [show (2 : Nat) = 2 ^ 1 from rfl]
                    exact Nat.div_le_div_left (Nat.pow_le_pow_right (by omega) (by omega))
                      (by positivity)
                omega
          have := update_getD_frame f t m (values.getD m init) (t.size + k) hfr
          rw [hsent] at this
          rw [this, hleaf k hk]
          rcases Nat.lt_or_ge k m with h | h
          · rw [if_pos h, if_pos (by omega)]
          · rw [if_neg (by omega), if_neg (by omega)]

/-- Given `f init init = init`, bulk construction agrees with repeated
updates: the two trees are equal as structures. -/
theorem fromVec_eq_buildByUpdates (values : List T) (init : T) (f : T → T → T)
    (hf : f init init = init) :
    fromVec values init f = buildByUpdates values init f := by
  obtain ⟨hsz, hsent, hlen, hinv, hzero, hleaf⟩ :=
    buildPrefix_spec values init f hf values.length le_rfl
  rw [hsz] at hleaf
  rw [buildByUpdates_eq_buildPrefix]
  have hfsz : (fromVec values init f).size = nextPow2 values.length := fromVec_size _ _ _
  have hflen : (fromVec values init f).buf.length = 2 * (fromVec values init f).size := by
    rw [fromVec_buf_length, hfsz]; omega
  ext1
  · rw [hfsz, hsz]
  · refine buf_eq_of_nodeInv f _ _ (by rw [hfsz, hsz]) hflen hlen
      (fromVec_nodeInv _ _ _) hinv ?_ ?_
    · intro k hk
      rw [hfsz] at hk
      rw [fromVec_sentry, hsent, hfsz, hsz]
      rcases Nat.lt_or_ge k values.length with h | h
      · rw [fromVec_leaf_val _ _ _ _ _ h, hleaf k hk, if_pos h]
      · rw [fromVec_leaf_pad _ _ _ _ _ h hk, hleaf k hk, if_neg (by omega)]
    · rw [fromVec_sentry, hsent, fromVec_getD_zero, hzero]
  · rw [fromVec_sentry, hsent]

/-! ### XOR semantics of `query` (claim C7) -/

/-- XOR-fold of `len` buffer cells starting at position `a`. -/
def rangeXorGo (buf : List Nat) : Nat → Nat → Nat
  | _, 0 => 0
  | a, len + 1 => Nat.xor (buf.getD a 0) (rangeXorGo buf (a + 1) len)

/-- XOR-fold of the buffer cells in the half-open range `[a, b)`. -/
def rangeXor (buf : List Nat) (a b : Nat) : Nat := rangeXorGo buf a (b - a)

theorem natXor_zero (a : Nat) : Nat.xor a 0 = a := Nat.xor_zero a

theorem natZero_xor (a : Nat) : Nat.xor 0 a = a := Nat.zero_xor a

theorem natXor_assoc (a b c : Nat) : Nat.xor (Nat.xor a b) c = Nat.xor a (Nat.xor b c) :=
  Nat.xor_assoc a b c

theorem natXor_comm (a b : Nat) : Nat.xor a b = Nat.xor b a := Nat.xor_comm a b

theorem rangeXor_empty (buf : List Nat) {a b : Nat} (h : b ≤ a) : rangeXor buf a b = 0 := by
  unfold rangeXor
  rw [show b - a = 0 from by omega]
  rfl

theorem rangeXor_step (buf : List Nat) {a b : Nat} (h : a < b) :
    rangeXor buf a b = Nat.xor (buf.getD a 0) (rangeXor buf (a + 1) b) := by
  unfold rangeXor
  rw [show b - a = (b - (a + 1)) + 1 from by omega]
  rfl

theorem rangeXor_single (buf : List Nat) (a : Nat) :
    rangeXor buf a (a + 1) = buf.getD a 0 := by
  rw [rangeXor_step buf (by omega), rangeXor_empty buf (by omega), natXor_zero]

theorem rangeXor_split_go (buf : List Nat) :
    ∀ d a b c, b - a = d → a ≤ b → b ≤ c →
      rangeXor buf a c = Nat.xor (rangeXor buf a b) (rangeXor buf b c) := by
  intro d
  induction d with
  | zero =>
      intro a b c hd hab hbc
      have hba : b = a := by omega
      subst hba
      rw [rangeXor_empty buf le_rfl, natZero_xor]
  | succ d ih =>
      intro a b c hd hab hbc
      have hab' : a < b := by omega
      rw [rangeXor_step buf (show a < c from by omega), rangeXor_step buf hab',
        ih (a + 1) b c (by omega) (by omega) hbc, natXor_assoc]

theorem rangeXor_split (buf : List Nat) {a b c : Nat} (hab : a ≤ b) (hbc : b ≤ c) :
    rangeXor buf a c = Nat.xor (rangeXor buf a b) (rangeXor buf b c) :=
  rangeXor_split_go buf (b - a) a b c rfl hab hbc

/-- `2 ^ (h + 1)` widths split in two. -/
theorem mulpow_succ (j h : Nat) : j * 2 ^ (h + 1) = j * 2 * 2 ^ h := by
  rw [pow_succ]; ring

/-- On a buffer satisfying the XOR node invariant below `sz`, the cell of the
node `j` covering the `2 ^ h` leaves `[j * 2 ^ h, (j + 1) * 2 ^ h)` holds
their XOR-fold. -/
theorem subtree_xor (buf : List Nat) (sz : Nat)
    (hinv : ∀ j, j < sz → 1 ≤ j →
      buf.getD j 0 = Nat.xor (buf.getD (j * 2) 0) (buf.getD (j * 2 + 1) 0)) :
    ∀ h j, 1 ≤ j → sz ≤ j * 2 ^ h → (j + 1) * 2 ^ h ≤ 2 * sz →
      buf.getD j 0 = rangeXor buf (j * 2 ^ h) ((j + 1) * 2 ^ h) := by
  intro h
  induction h with
  | zero =>
      intro j hj _ _
      simp only [pow_zero, mul_one]
      rw [rangeXor_single]
  | succ h ih =>
      intro j hj hlo hhi
      have h2 : (2 : Nat) ≤ 2 ^ (h + 1) := by
        calc (2 : Nat) = 2 ^ 1 := rfl
        _ ≤ 2 ^ (h + 1) := Nat.pow_le_pow_right (by omega) (by omega)
      have hjsz : j < sz := by
        have hmul := Nat.mul_le_mul_left (j + 1) h2
        have := le_trans hmul hhi
        omega
      have e1 : j * 2 ^ (h + 1) = j * 2 * 2 ^ h := mulpow_succ j h
      have e2 : (j + 1) * 2 ^ (h + 1) = (j * 2 + 2) * 2 ^ h := by
        rw [mulpow_succ]; ring
      have hmid : j * 2 * 2 ^ h ≤ (j * 2 + 1) * 2 ^ h :=
        Nat.mul_le_mul_right _ (by omega)
      have hmid2 : (j * 2 + 1) * 2 ^ h ≤ (j * 2 + 2) * 2 ^ h :=
        Nat.mul_le_mul_right _ (by omega)
      have hA : sz ≤ j * 2 * 2 ^ h := by rw [← e1]; exact hlo
      have hB : (j * 2 + 2) * 2 ^ h ≤ 2 * sz := by rw [← e2]; exact hhi
      have hC : (j * 2 + 1) * 2 ^ h ≤ 2 * sz := le_trans hmid2 hB
      have hD : sz ≤ (j * 2 + 1) * 2 ^ h := le_trans hA hmid
      have hB' : (j * 2 + 1 + 1) * 2 ^ h ≤ 2 * sz := by
        rw [show j * 2 + 1 + 1 = j * 2 + 2 from by omega]; exact hB
      rw [hinv j hjsz hj]
      rw [ih (j * 2) (by omega) hA hC]
      rw [ih (j * 2 + 1) (by omega) hD hB']
      rw [show j * 2 + 1 + 1 = j * 2 + 2 from by omega]
      rw [e1, e2]
      rw [rangeXor_split buf hmid hmid2]

theorem natXor_rearrange (v A B M : Nat) :
    Nat.xor (Nat.xor (Nat.xor v A) B) M = Nat.xor v (Nat.xor A (Nat.xor M B)) := by
  rw [natXor_assoc, natXor_assoc, natXor_comm B M]

theorem natXor_rearrange2 (v B M : Nat) :
    Nat.xor (Nat.xor v B) M = Nat.xor v (Nat.xor M B) := by
  rw [natXor_assoc, natXor_comm B M]

/-- Loop invariant of `query` for XOR: starting from accumulator `v` with the
windows `[l, r)` of same-level nodes of width `2 ^ h`, the loop returns `v`
XOR the fold of the leaves covered by the window. -/
theorem queryLoop_xor (buf : List Nat) (sz : Nat) (hsz : 1 ≤ sz)
    (hinv : ∀ j, j < sz → 1 ≤ j →
      buf.getD j 0 = Nat.xor (buf.getD (j * 2) 0) (buf.getD (j * 2 + 1) 0)) :
    ∀ r l h v, sz ≤ l * 2 ^ h → r * 2 ^ h ≤ 2 * sz → l ≤ r →
      queryLoop Nat.xor buf 0 v l r = Nat.xor v (rangeXor buf (l * 2 ^ h) (r * 2 ^ h)) := by
  intro r
  induction r using Nat.strong_induction_on with
  | _ r ihr =>
      intro l h v hlo hhi hlr
      have hpow : 1 ≤ 2 ^ h := Nat.one_le_two_pow
      have hl1 : 1 ≤ l := by
        rcases Nat.eq_zero_or_pos l with h0 | h0
        · subst h0; simp at hlo; omega
        · exact h0
      rcases eq_or_lt_of_le hlr with heq | hlt
      · subst heq
        rw [queryLoop_eq, if_neg (lt_irrefl l), rangeXor_empty buf le_rfl, natXor_zero]
      · have hr2 : 2 ≤ r := by omega
        have hupl : (l + 1) * 2 ^ h ≤ r * 2 ^ h := Nat.mul_le_mul_right _ (by omega)
        have hlor : sz ≤ (r - 1) * 2 ^ h :=
          le_trans hlo (Nat.mul_le_mul_right _ (by omega))
        rw [queryLoop_eq, if_pos hlt]
        by_cases hlp : l % 2 = 1 <;> by_cases hrp : r % 2 = 1
        · -- both ends odd: two reads, then recurse on [((l+1)/2, (r-1)/2)
          simp only [if_pos hlp, if_pos hrp]
          have hlr2 : l + 1 ≤ r - 1 := by omega
          have el : (l + 1) / 2 * 2 ^ (h + 1) = (l + 1) * 2 ^ h := by
            rw [mulpow_succ, show (l + 1) / 2 * 2 = l + 1 from by omega]
          have er : (r - 1) / 2 * 2 ^ (h + 1) = (r - 1) * 2 ^ h := by
            rw [mulpow_succ, show (r - 1) / 2 * 2 = r - 1 from by omega]
          rw [ihr ((r - 1) / 2) (by omega) ((l + 1) / 2) (h + 1) _
            (by rw [el]; exact le_trans hlo (Nat.mul_le_mul_right _ (by omega)))
            (by rw [er]; exact le_trans (Nat.mul_le_mul_right _ (by omega)) hhi)
            (by omega), el, er]
          rw [subtree_xor buf sz hinv h l hl1 hlo (le_trans hupl hhi)]
          have hbr : buf.getD (r - 1) 0 = rangeXor buf ((r - 1) * 2 ^ h) (r * 2 ^ h) := by
            have := subtree_xor buf sz hinv h (r - 1) (by omega) hlor
              (by rw [show r - 1 + 1 = r from by omega]; exact hhi)
            rwa [show r - 1 + 1 = r from by omega] at this
          rw [hbr]
          rw [show rangeXor buf (l * 2 ^ h) (r * 2 ^ h)
              = Nat.xor (rangeXor buf (l * 2 ^ h) ((l + 1) * 2 ^ h))
                  (Nat.xor (rangeXor buf ((l + 1) * 2 ^ h) ((r - 1) * 2 ^ h))
                    (rangeXor buf ((r - 1) * 2 ^ h) (r * 2 ^ h))) from by
            rw [← rangeXor_split buf (Nat.mul_le_mul_right _ (by omega))
                (Nat.mul_le_mul_right _ (by omega)),
              ← rangeXor_split buf (Nat.mul_le_mul_right _ (by omega))
                (Nat.mul_le_mul_right _ (by omega))]]
          rw [natXor_rearrange]
        · -- left end odd, right end even
          simp only [if_pos hlp, if_neg hrp]
          have el : (l + 1) / 2 * 2 ^ (h + 1) = (l + 1) * 2 ^ h := by
            rw [mulpow_succ, show (l + 1) / 2 * 2 = l + 1 from by omega]
          have er : r / 2 * 2 ^ (h + 1) = r * 2 ^ h := by
            rw [mulpow_succ, show r / 2 * 2 = r from by omega]
          rw [ihr (r / 2) (by omega) ((l + 1) / 2) (h + 1) _
            (by rw [el]; exact le_trans hlo (Nat.mul_le_mul_right _ (by omega)))
            (by rw [er]; exact hhi)
            (by omega), el, er]
          rw [subtree_xor buf sz hinv h l hl1 hlo (le_trans hupl hhi)]
          rw [rangeXor_split buf (Nat.mul_le_mul_right _ (show l ≤ l + 1 from by omega)) hupl]
          rw [natXor_assoc]
        · -- left end even, right end odd
          simp only [if_neg hlp, if_pos hrp]
          have el : l / 2 * 2 ^ (h + 1) = l * 2 ^ h := by
            rw [mulpow_succ, show l / 2 * 2 = l from by omega]
          have er : (r - 1) / 2 * 2 ^ (h + 1) = (r - 1) * 2 ^ h := by
            rw [mulpow_succ, show (r - 1) / 2 * 2 = r - 1 from by omega]
          rw [ihr ((r - 1) / 2) (by omega) (l / 2) (h + 1) _
            (by rw [el]; exact hlo)
            (by rw [er]; exact le_trans (Nat.mul_le_mul_right _ (by omega)) hhi)
            (by omega), el, er]
          have hbr : buf.getD (r - 1) 0 = rangeXor buf ((r - 1) * 2 ^ h) (r * 2 ^ h) := by
            have := subtree_xor buf sz hinv h (r - 1) (by omega) hlor
              (by rw [show r - 1 + 1 = r from by omega]; exact hhi)
            rwa [show r - 1 + 1 = r from by omega] at this
          rw [hbr]
          rw [rangeXor_split buf (Nat.mul_le_mul_right _ (show l ≤ r - 1 from by omega))
            (Nat.mul_le_mul_right _ (show r - 1 ≤ r from by omega))]
          rw [natXor_rearrange2]
        · -- both ends even
          simp only [if_neg hlp, if_neg hrp]
          have el : l / 2 * 2 ^ (h + 1) = l * 2 ^ h := by
            rw [mulpow_succ, show l / 2 * 2 = l from by omega]
          have er : r / 2 * 2 ^ (h + 1) = r * 2 ^ h := by
            rw [mulpow_succ, show r / 2 * 2 = r from by omega]
          rw [ihr (r / 2) (by omega) (l / 2) (h + 1) _
            (by rw [el]; exact hlo)
            (by rw [er]; exact hhi)
            (by omega), el, er]

/-- XOR-fold of a list of numbers. -/
def listXor (l : List Nat) : Nat := l.foldr Nat.xor 0

theorem listXor_cons (x : Nat) (l : List Nat) : listXor (x :: l) = Nat.xor x (listXor l) := rfl

theorem rangeXorGo_eq_map (buf : List Nat) (g : Nat → Nat) :
    ∀ len a, (∀ k, k < len → buf.getD (a + k) 0 = g (a + k)) →
      rangeXorGo buf a len = listXor ((List.range len).map (fun k => g (a + k))) := by
  intro len
  induction len with
  | zero => intro a _; rfl
  | succ len ih =>
      intro a hg
      show Nat.xor (buf.getD a 0) (rangeXorGo buf (a + 1) len) = _
      rw [List.range_succ_eq_map, List.map_cons, List.map_map, listXor_cons]
      have h0 : buf.getD a 0 = g (a + 0) := by simpa using hg 0 (by omega)
      rw [h0, ih (a + 1) (fun k hk => by
        have := hg (k + 1) (by omega)
        rwa [show a + (k + 1) = a + 1 + k from by omega] at this)]
      congr 2
      apply List.map_congr_left
      intro k _
      simp only [Function.comp_apply]
      congr 1
      omega

/-- Reading back a list cell by cell gives the list. -/
theorem map_getD_range {α : Type _} (values : List α) (d : α) :
    (List.range values.length).map (fun k => values.getD k d) = values := by
  induction values with
  | nil => rfl
  | cons v vs ih =>
      rw [List.length_cons, List.range_succ_eq_map, List.map_cons, List.map_map]
      have hc : (fun k => (v :: vs).getD k d) ∘ Nat.succ = fun k => vs.getD k d := by
        funext k; rfl
      rw [hc, ih]
      rfl

/-- The `query` loop reads only buffer cells inside its current window, so two
buffers that differ only at the ancestors of a leaf `a` outside the window
give the same answer. -/
theorem queryLoop_congr (f : T → T → T) (s : T) (buf1 buf2 : List T) (a sz : Nat)
    (hdiff : ∀ p : Nat, (∀ m : Nat, p ≠ a / 2 ^ m) → buf1.getD p s = buf2.getD p s)
    (hsza : sz ≤ a) :
    ∀ r l v, r ≤ 2 * sz → (∀ m : Nat, a / 2 ^ m < l ∨ r ≤ a / 2 ^ m) →
      queryLoop f buf1 s v l r = queryLoop f buf2 s v l r := by
  intro r
  induction r using Nat.strong_induction_on with
  | _ r ihr =>
      intro l v hr2sz hwin
      by_cases hlt : l < r
      · have hreadl : ∀ m : Nat, l ≠ a / 2 ^ m := by
          intro m h
          rcases hwin m with hm | hm <;> omega
        have hreadr : ∀ m : Nat, r - 1 ≠ a / 2 ^ m := by
          intro m h
          rcases hwin m with hm | hm <;> omega
        have hbl : buf1.getD l s = buf2.getD l s := hdiff l fun m => hreadl m
        have hbr : buf1.getD (r - 1) s = buf2.getD (r - 1) s := hdiff (r - 1) fun m => hreadr m
        have hwin' : ∀ m : Nat,
            a / 2 ^ m < (if l % 2 = 1 then l + 1 else l) / 2 ∨
            (if r % 2 = 1 then r - 1 else r) / 2 ≤ a / 2 ^ m := by
          intro m
          cases m with
          | zero =>
              refine Or.inr ?_
              have : (if r % 2 = 1 then r - 1 else r) / 2 ≤ sz := by split <;> omega
              simpa using by omega
          | succ m' =>
              have hstep := hwin m'
              have hdiv : a / 2 ^ m' / 2 = a / 2 ^ (m' + 1) := div_pow_div_two a m'
              rcases hstep with hm | hm
              · left; split <;> omega
              · right; split <;> omega
        rw [queryLoop_eq f buf1, queryLoop_eq f buf2, if_pos hlt, if_pos hlt]
        simp only [hbl, hbr]
        exact ihr ((if r % 2 = 1 then r - 1 else r) / 2) (by split <;> omega) _ _
          (by split <;> omega) hwin'
      · rw [queryLoop_eq f buf1, queryLoop_eq f buf2, if_neg hlt, if_neg hlt]

/-- A proper ancestor is at most the half. -/
theorem div_pow_le_div_two (a m : Nat) (hm : 1 ≤ m) : a / 2 ^ m ≤ a / 2 := by
  rw [show (2 : Nat) = 2 ^ 1 from rfl]
  exact Nat.div_le_div_left (Nat.pow_le_pow_right (by omega) (by omega)) (by positivity)

/-- A single-index query reads exactly the leaf cell, combined once with the
sentry; this holds for every tree and combine function. -/
theorem query_single (f : T → T → T) (t : SegmentTree T) (i : Nat) :
    query f t i (i + 1) = f t.sentry (t.buf.getD (i + t.size) t.sentry) := by
  show queryLoop f t.buf t.sentry t.sentry (i + t.size) (i + 1 + t.size) = _
  rw [show i + 1 + t.size = i + t.size + 1 from by omega]
  set l := i + t.size with hl
  rw [queryLoop_eq, if_pos (by omega)]
  by_cases hp : l % 2 = 1
  · have hp1 : ¬(l + 1) % 2 = 1 := by omega
    simp only [if_pos hp, if_neg hp1]
    rw [queryLoop_eq, if_neg (lt_irrefl _)]
  · have hp1 : (l + 1) % 2 = 1 := by omega
    simp only [if_neg hp, if_pos hp1]
    rw [show l + 1 - 1 = l from by omega]
    rw [queryLoop_eq, if_neg (show ¬l / 2 < l / 2 from lt_irrefl _)]

/-- `get` at any other in-range position is unchanged by `update`. -/
theorem update_get_ne (f : T → T → T) (t : SegmentTree T) (index : Nat) (value : T)
    (j : Nat) (hidx : index < t.size) (hne : j ≠ index) :
    get (update f t index value) j = get t j := by
  show (update f t index value).buf.getD (j + (update f t index value).size)
      (update f t index value).sentry = _
  rw [update_size, update_sentry]
  refine update_getD_frame f t index value (j + t.size) ?_
  intro m
  cases m with
  | zero => simpa using by omega
  | succ m' =>
      have h1 : (index + t.size) / 2 ^ (m' + 1) ≤ (index + t.size) / 2 :=
        div_pow_le_div_two _ _ (by omega)
      omega

/-- A query over a window that does not contain the updated index is
unchanged by the update, for every combine function. -/
theorem update_query_frame (f : T → T → T) (t : SegmentTree T) (index : Nat) (value : T)
    (hidx : index < t.size) (l r : Nat) (hr : r ≤ t.size) (hout : index < l ∨ r ≤ index) :
    query f (update f t index value) l r = query f t l r := by
  show queryLoop f (update f t index value).buf (update f t index value).sentry
      (update f t index value).sentry (l + (update f t index value).size)
      (r + (update f t index value).size) = _
  rw [update_size, update_sentry]
  refine queryLoop_congr f t.sentry (update f t index value).buf t.buf
    (index + t.size) t.size (fun p hp => update_getD_frame f t index value p hp)
    (by omega) (r + t.size) (l + t.size) t.sentry (by omega) ?_
  intro m
  cases m with
  | zero =>
      simp only [pow_zero, Nat.div_one]
      omega
  | succ m' =>
      left
      have h1 : (index + t.size) / 2 ^ (m' + 1) ≤ (index + t.size) / 2 :=
        div_pow_le_div_two _ _ (by omega)
      omega

/-- Tree-level XOR query: on a tree with sentry `0` satisfying the node
invariant, `query(start..stop)` is the XOR-fold of the leaf cells of the
half-open window. -/
theorem query_xor_tree (t : SegmentTree Nat) (hsent : t.sentry = 0) (hsz : 1 ≤ t.size)
    (hinv : nodeInv Nat.xor t)
    (start stop : Nat) (h1 : start ≤ stop) (h2 : stop ≤ t.size) :
    query Nat.xor t start stop = rangeXor t.buf (start + t.size) (stop + t.size) := by
  show queryLoop Nat.xor t.buf t.sentry t.sentry (start + t.size) (stop + t.size) = _
  rw [hsent]
  have hinv' : ∀ j, j < t.size → 1 ≤ j →
      t.buf.getD j 0 = Nat.xor (t.buf.getD (j * 2) 0) (t.buf.getD (j * 2 + 1) 0) := by
    intro j hj hj1
    have := hinv j hj hj1
    rwa [hsent] at this
  have hq := queryLoop_xor t.buf t.size hsz hinv' (stop + t.size) (start + t.size) 0 0
    (by simp only [pow_zero, mul_one]; omega) (by simp only [pow_zero, mul_one]; omega)
    (by omega)
  simp only [pow_zero, mul_one] at hq
  rw [hq, natZero_xor]

/-- `query` over `fromVec values 0 ^` on the window `[start, stop)` is the
XOR-fold of `values[start], …, values[stop-1]` (out-of-range entries read as
the padding value `0`). -/
theorem fromVec_query_range (values : List Nat) (start stop : Nat)
    (h1 : start ≤ stop) (h2 : stop ≤ nextPow2 values.length) :
    query Nat.xor (fromVec values 0 Nat.xor) start stop
      = listXor ((List.range (stop - start)).map (fun k => values.getD (start + k) 0)) := by
  set t := fromVec values 0 Nat.xor with ht
  have hsz : t.size = nextPow2 values.length := fromVec_size _ _ _
  have h1sz := one_le_nextPow2 values.length
  have hle := le_nextPow2 values.length
  rw [query_xor_tree t (fromVec_sentry _ _ _) (by omega)
    (fromVec_nodeInv _ _ _) start stop h1 (by omega)]
  rw [show rangeXor t.buf (start + t.size) (stop + t.size)
      = rangeXorGo t.buf (start + t.size) (stop - start) from by
    rw [rangeXor, show stop + t.size - (start + t.size) = stop - start from by omega]]
  rw [rangeXorGo_eq_map t.buf (fun p => values.getD (p - t.size) 0) (stop - start)
    (start + t.size) ?_]
  · congr 1
    apply List.map_congr_left
    intro k _
    congr 1
    omega
  · intro k hk
    show t.buf.getD (start + t.size + k) 0 = values.getD (start + t.size + k - t.size) 0
    rw [show start + t.size + k - t.size = start + k from by omega]
    rcases Nat.lt_or_ge (start + k) values.length with hv | hv
    · have := fromVec_leaf_val values 0 0 Nat.xor (start + k) hv
      rw [← hsz] at this
      rw [show start + t.size + k = t.size + (start + k) from by omega, this]
    · have hlt : start + k < nextPow2 values.length := by omega
      have := fromVec_leaf_pad values 0 0 Nat.xor (start + k) hv hlt
      rw [← hsz] at this
      rw [show start + t.size + k = t.size + (start + k) from by omega, this,
        List.getD_eq_default _ _ hv]

/-- The full-range query on `fromVec values 0 ^` is the XOR-fold of all the
values. -/
theorem fromVec_query_all (values : List Nat) :
    query Nat.xor (fromVec values 0 Nat.xor) 0 values.length = listXor values := by
  rw [fromVec_query_range values 0 values.length (by omega) (le_nextPow2 _)]
  simp only [Nat.sub_zero, Nat.zero_add]
  rw [map_getD_range]

end SegmentTree

namespace UnionFind

/-- The list of nodes visited by the walk of `rootGo` (starting node first,
root last); a specification device used to reason about the walks. -/
def pathGo (parent : List (Option Nat)) : Nat → Nat → Option (List Nat)
  | 0, _ => none
  | fuel + 1, curr =>
      match parent[curr]? with
      | none => none
      | some none => some [curr]
      | some (some p) => (pathGo parent fuel p).map (curr :: ·)

theorem pathGo_ne_nil {parent : List (Option Nat)} {fuel c : Nat} {l : List Nat}
    (h : pathGo parent fuel c = some l) : l ≠ [] := by
  cases fuel with
  | zero => simp [pathGo] at h
  | succ fuel =>
      rcases hc : parent[c]? with _ | op
      · simp [pathGo, hc] at h
      · rcases op with _ | p
        · simp only [pathGo, hc] at h
          simp at h
          subst h
          simp
        · simp only [pathGo, hc] at h
          rcases hp : pathGo parent fuel p with _ | l'
          · rw [hp] at h; simp at h
          · rw [hp] at h
            simp at h
            subst h
            simp

theorem pathGo_head {parent : List (Option Nat)} {fuel c : Nat} {l : List Nat}
    (h : pathGo parent fuel c = some l) : ∃ l', l = c :: l' := by
  cases fuel with
  | zero => simp [pathGo] at h
  | succ fuel =>
      rcases hc : parent[c]? with _ | op
      · simp [pathGo, hc] at h
      · rcases op with _ | p
        · simp only [pathGo, hc] at h
          simp at h
          subst h
          exact ⟨[], rfl⟩
        · simp only [pathGo, hc] at h
          rcases hp : pathGo parent fuel p with _ | l'
          · rw [hp] at h; simp at h
          · rw [hp] at h
            simp at h
            exact ⟨l', h.symm⟩

theorem pathGo_mono {parent : List (Option Nat)} :
    ∀ {f1 f2 c l}, pathGo parent f1 c = some l → f1 ≤ f2 → pathGo parent f2 c = some l := by
  intro f1
  induction f1 with
  | zero => intro f2 c l h _; simp [pathGo] at h
  | succ f1 ih =>
      intro f2 c l h hle
      obtain ⟨f2', rfl⟩ : ∃ f2', f2 = f2' + 1 := ⟨f2 - 1, by omega⟩
      rcases hc : parent[c]? with _ | op
      · simp [pathGo, hc] at h
      · rcases op with _ | p
        · simp only [pathGo, hc] at h ⊢
          exact h
        · simp only [pathGo, hc] at h ⊢
          rcases hp : pathGo parent f1 p with _ | l'
          · rw [hp] at h; simp at h
          · rw [hp] at h
            rw [ih hp (by omega)]
            exact h

theorem pathGo_det {parent : List (Option Nat)} :
    ∀ {f1 f2 c l1 l2}, pathGo parent f1 c = some l1 → pathGo parent f2 c = some l2 →
      l1 = l2 := by
  intro f1 f2 c l1 l2 h1 h2
  rcases Nat.le_total f1 f2 with h | h
  · rw [pathGo_mono h1 h] at h2; exact Option.some_injective _ h2
  · rw [pathGo_mono h2 h] at h1; exact (Option.some_injective _ h1).symm

theorem getLastD_of_ne_nil {l : List Nat} (h : l ≠ []) (a b : Nat) :
    l.getLastD a = l.getLastD b := by
  cases l with
  | nil => exact absurd rfl h
  | cons x xs => rfl

/-- `rootGo` returns the last node of the visited path. -/
theorem rootGo_eq_pathGo (parent : List (Option Nat)) :
    ∀ fuel c, rootGo parent fuel c = (pathGo parent fuel c).map (fun l => l.getLastD 0) := by
  intro fuel
  induction fuel with
  | zero => intro c; rfl
  | succ fuel ih =>
      intro c
      rcases hc : parent[c]? with _ | op
      · simp [rootGo, pathGo, hc]
      · rcases op with _ | p
        · simp [rootGo, pathGo, hc]
        · simp only [rootGo, pathGo, hc]
          rw [ih p]
          rcases hp : pathGo parent fuel p with _ | l'
          · rfl
          · have hne := pathGo_ne_nil hp
            cases l' with
            | nil => exact absurd rfl hne
            | cons a as => rfl

theorem lt_of_getElem? {α : Type _} {l : List α} {i : Nat} {a : α} (h : l[i]? = some a) :
    i < l.length := by
  by_contra hc
  rw [List.getElem?_eq_none (by omega)] at h
  exact Option.noConfusion h

theorem pathGo_mem_lt (parent : List (Option Nat)) :
    ∀ {fuel c l}, pathGo parent fuel c = some l → ∀ j ∈ l, j < parent.length := by
  intro fuel
  induction fuel with
  | zero => intro c l h; simp [pathGo] at h
  | succ fuel ih =>
      intro c l h j hj
      rcases hc : parent[c]? with _ | op
      · simp [pathGo, hc] at h
      · rcases op with _ | p
        · simp only [pathGo, hc] at h
          simp at h
          subst h
          simp at hj
          subst hj
          exact lt_of_getElem? hc
        · simp only [pathGo, hc] at h
          rcases hp : pathGo parent fuel p with _ | l'
          · rw [hp] at h; simp at h
          · rw [hp] at h
            simp at h
            subst h
            rcases List.mem_cons.mp hj with rfl | hj'
            · exact lt_of_getElem? hc
            · exact ih hp j hj'

theorem pathGo_min_fuel (parent : List (Option Nat)) :
    ∀ {fuel c l}, pathGo parent fuel c = some l → pathGo parent l.length c = some l := by
  intro fuel
  induction fuel with
  | zero => intro c l h; simp [pathGo] at h
  | succ fuel ih =>
      intro c l h
      rcases hc : parent[c]? with _ | op
      · simp [pathGo, hc] at h
      · rcases op with _ | p
        · simp only [pathGo, hc] at h
          simp at h
          subst h
          simp [pathGo, hc]
        · simp only [pathGo, hc] at h
          rcases hp : pathGo parent fuel p with _ | l'
          · rw [hp] at h; simp at h
          · rw [hp] at h
            simp at h
            subst h
            have := ih hp
            simp only [List.length_cons, pathGo, hc]
            rw [this]
            rfl

theorem pathGo_suffix_mem (parent : List (Option Nat)) :
    ∀ {fuel c l}, pathGo parent fuel c = some l →
      ∀ j ∈ l, ∃ l2, pathGo parent fuel j = some l2 ∧ l2.length ≤ l.length := by
  intro fuel
  induction fuel with
  | zero => intro c l h; simp [pathGo] at h
  | succ fuel ih =>
      intro c l h j hj
      rcases hc : parent[c]? with _ | op
      · simp [pathGo, hc] at h
      · rcases op with _ | p
        · simp only [pathGo, hc] at h
          simp at h
          subst h
          simp at hj
          subst hj
          exact ⟨[j], by simp [pathGo, hc], le_rfl⟩
        · simp only [pathGo, hc] at h
          rcases hp : pathGo parent fuel p with _ | l'
          · rw [hp] at h; simp at h
          · rw [hp] at h
            simp at h
            subst h
            rcases List.mem_cons.mp hj with rfl | hj'
            · exact ⟨j :: l', by simp [pathGo, hc, hp], le_rfl⟩
            · obtain ⟨l2, h2, hlen⟩ := ih hp j hj'
              exact ⟨l2, pathGo_mono h2 (Nat.le_succ fuel), by simp; omega⟩

theorem pathGo_nodup (parent : List (Option Nat)) :
    ∀ {fuel c l}, pathGo parent fuel c = some l → l.Nodup := by
  intro fuel
  induction fuel with
  | zero => intro c l h; simp [pathGo] at h
  | succ fuel ih =>
      intro c l h
      rcases hc : parent[c]? with _ | op
      · simp [pathGo, hc] at h
      · rcases op with _ | p
        · simp only [pathGo, hc] at h
          simp at h
          subst h
          simp
        · simp only [pathGo, hc] at h
          rcases hp : pathGo parent fuel p with _ | l'
          · rw [hp] at h; simp at h
          · rw [hp] at h
            simp at h
            subst h
            rw [List.nodup_cons]
            refine ⟨fun hmem => ?_, ih hp⟩
            obtain ⟨l2, h2, hlen⟩ := pathGo_suffix_mem parent hp c hmem
            have horig : pathGo parent (fuel + 1) c = some (c :: l') := by
              simp [pathGo, hc, hp]
            have := pathGo_det (pathGo_mono h2 (Nat.le_succ fuel)) horig
            subst this
            simp at hlen

theorem nodup_length_le {l : List Nat} (hn : l.Nodup) {n : Nat} (hm : ∀ j ∈ l, j < n) :
    l.length ≤ n := by
  have h1 : l.toFinset.card = l.length := List.toFinset_card_of_nodup hn
  have h2 : l.toFinset ⊆ Finset.range n := by
    intro a ha
    rw [List.mem_toFinset] at ha
    rw [Finset.mem_range]
    exact hm a ha
  have h3 := Finset.card_le_card h2
  rw [h1, Finset.card_range] at h3
  exact h3

theorem rootGo_mono {parent : List (Option Nat)} {f1 f2 x r : Nat}
    (h : rootGo parent f1 x = some r) (hle : f1 ≤ f2) : rootGo parent f2 x = some r := by
  rw [rootGo_eq_pathGo] at h ⊢
  rcases hp : pathGo parent f1 x with _ | l
  · rw [hp] at h; exact Option.noConfusion h
  · rw [hp] at h
    rw [pathGo_mono hp hle]
    exact h

theorem rootGo_det {parent : List (Option Nat)} {f1 f2 x r1 r2 : Nat}
    (h1 : rootGo parent f1 x = some r1) (h2 : rootGo parent f2 x = some r2) : r1 = r2 := by
  rw [rootGo_eq_pathGo] at h1 h2
  rcases hp1 : pathGo parent f1 x with _ | l1
  · rw [hp1] at h1; exact Option.noConfusion h1
  · rcases hp2 : pathGo parent f2 x with _ | l2
    · rw [hp2] at h2; exact Option.noConfusion h2
    · rw [hp1] at h1; rw [hp2] at h2
      have := pathGo_det hp1 hp2
      subst this
      simp at h1 h2
      omega

/-- With any sufficient fuel, the walk succeeds already with fuel
`parent.length`: the visited nodes are pairwise distinct and in bounds. -/
theorem rootGo_shrink {parent : List (Option Nat)} {fuel x r : Nat}
    (h : rootGo parent fuel x = some r) : rootGo parent parent.length x = some r := by
  rw [rootGo_eq_pathGo] at h ⊢
  rcases hp : pathGo parent fuel x with _ | l
  · rw [hp] at h; exact Option.noConfusion h
  · rw [hp] at h
    have hmin := pathGo_min_fuel parent hp
    have hnd := pathGo_nodup parent hp
    have hmem := pathGo_mem_lt parent hp
    have hlen : l.length ≤ parent.length := nodup_length_le hnd hmem
    rw [pathGo_mono hmin hlen]
    exact h

theorem rootGo_isRoot (parent : List (Option Nat)) :
    ∀ {fuel c r}, rootGo parent fuel c = some r → parent[r]? = some none := by
  intro fuel
  induction fuel with
  | zero => intro c r h; exact Option.noConfusion h
  | succ fuel ih =>
      intro c r h
      rcases hc : parent[c]? with _ | op
      · simp [rootGo, hc] at h
      · rcases op with _ | p
        · simp only [rootGo, hc] at h
          simp at h
          subst h
          exact hc
        · simp only [rootGo, hc] at h
          exact ih h

theorem rootGo_oob {parent : List (Option Nat)} {fuel x : Nat}
    (h : parent.length ≤ x) : rootGo parent fuel x = none := by
  cases fuel with
  | zero => rfl
  | succ fuel => simp [rootGo, List.getElem?_eq_none h]

theorem rootGo_lt {parent : List (Option Nat)} {fuel x r : Nat}
    (h : rootGo parent fuel x = some r) : x < parent.length := by
  by_contra hc
  rw [rootGo_oob (by omega)] at h
  exact Option.noConfusion h

theorem rootGo_root_lt {parent : List (Option Nat)} {fuel x r : Nat}
    (h : rootGo parent fuel x = some r) : r < parent.length :=
  lt_of_getElem? (rootGo_isRoot parent h)

/-- Helper for `rootOptGo_spec`: once the walk has left `x` (never to return,
by acyclicity), the only mutated cell is `parent[x]`, which ends up holding
the root. -/
theorem rootOptGo_go (parent : List (Option Nat)) (x : Nat) :
    ∀ {fuel curr l r}, pathGo parent fuel curr = some l → x ∉ l →
      rootGo parent fuel curr = some r →
      rootOptGo x fuel (parent.set x (some curr)) curr = some (parent.set x (some r), r) := by
  intro fuel
  induction fuel with
  | zero => intro c l r h _ _; simp [pathGo] at h
  | succ fuel ih =>
      intro curr l r hpath hx hroot
      have hcurr_mem : curr ∈ l := by
        obtain ⟨l', rfl⟩ := pathGo_head hpath
        simp
      have hcx : x ≠ curr := fun hEq => hx (hEq ▸ hcurr_mem)
      have hget : (parent.set x (some curr))[curr]? = parent[curr]? :=
        List.getElem?_set_ne hcx
      rcases hc : parent[curr]? with _ | op
      · simp [pathGo, hc] at hpath
      · rcases op with _ | p
        · simp only [rootGo, hc] at hroot
          simp at hroot
          subst hroot
          simp only [rootOptGo, hget, hc]
        · simp only [pathGo, hc] at hpath
          rcases hp : pathGo parent fuel p with _ | l'
          · rw [hp] at hpath; simp at hpath
          · rw [hp] at hpath
            simp at hpath
            subst hpath
            simp only [rootGo, hc] at hroot
            have hx' : x ∉ l' := fun hmem => hx (List.mem_cons_of_mem _ hmem)
            simp only [rootOptGo, hget, hc, List.set_set]
            exact ih hp hx' hroot

/-- The mutation performed by `root_with_optimize(x)`: the walk returns the
same root as the read-only walk, and the only cell it can change is
`parent[x]`, which afterwards points directly at that root (when `x` is not
itself a root; a root's walk leaves the array untouched). -/
theorem rootOptGo_spec (parent : List (Option Nat)) {fuel x r : Nat}
    (h : rootGo parent fuel x = some r) :
    ∃ P, rootOptGo x fuel parent x = some (P, r) ∧ P.length = parent.length ∧
      (∀ j, j ≠ x → P[j]? = parent[j]?) ∧
      (parent[x]? = some none → P = parent) ∧
      (∀ p0, parent[x]? = some (some p0) → P = parent.set x (some r)) := by
  cases fuel with
  | zero => exact Option.noConfusion h
  | succ fuel =>
      rcases hx : parent[x]? with _ | op
      · simp [rootGo, hx] at h
      · rcases op with _ | p
        · simp only [rootGo, hx] at h
          simp at h
          subst h
          refine ⟨parent, ?_, rfl, fun j _ => rfl, fun _ => rfl, fun p0 hp0 => ?_⟩
          · simp only [rootOptGo, hx]
          · simp at hp0
        · simp only [rootGo, hx] at h
          have hpath : ∃ l', pathGo parent fuel p = some l' := by
            rw [rootGo_eq_pathGo] at h
            rcases hp : pathGo parent fuel p with _ | l'
            · rw [hp] at h; exact Option.noConfusion h
            · exact ⟨l', rfl⟩
          obtain ⟨l', hp⟩ := hpath
          have hfull : pathGo parent (fuel + 1) x = some (x :: l') := by
            simp [pathGo, hx, hp]
          have hnd := pathGo_nodup parent hfull
          rw [List.nodup_cons] at hnd
          have hxl : x ∉ l' := hnd.1
          refine ⟨parent.set x (some r), ?_, by simp, fun j hj => List.getElem?_set_ne
            (fun hEq => hj hEq.symm), fun hroot => ?_, fun p0 _ => rfl⟩
          · simp only [rootOptGo, hx]
            exact rootOptGo_go parent x hp hxl h
          · simp at hroot

/-- Path compression is sound: rewriting `parent[x]` to point directly at the
root of `x` changes no walk's result. -/
theorem rootGo_set_root (parent : List (Option Nat)) {x p0 rx fx : Nat}
    (hx : parent[x]? = some (some p0)) (hrx : rootGo parent fx x = some rx) :
    ∀ {fuel i ri}, rootGo parent fuel i = some ri →
      rootGo (parent.set x (some rx)) fuel i = some ri := by
  intro fuel
  induction fuel with
  | zero => intro i ri h; exact Option.noConfusion h
  | succ fuel ih =>
      intro i ri h
      by_cases hix : i = x
      · subst hix
        simp only [rootGo, hx] at h
        have hx_root : rootGo parent (fuel + 1) i = some ri := by
          simp only [rootGo, hx]
          exact h
        have hri : ri = rx := rootGo_det hx_root hrx
        subst hri
        have hxlen : i < parent.length := lt_of_getElem? hx
        have h1 : (parent.set i (some ri))[i]? = some (some ri) :=
          List.getElem?_set_self hxlen
        have hroot : parent[ri]? = some none := rootGo_isRoot parent hrx
        have hne : i ≠ ri := by
          intro hEq
          rw [← hEq, hx] at hroot
          simp at hroot
        have h2 : (parent.set i (some ri))[ri]? = some none := by
          rw [List.getElem?_set_ne hne, hroot]
        obtain ⟨fuel', rfl⟩ : ∃ f', fuel = f' + 1 := by
          cases fuel with
          | zero => exact Option.noConfusion h
          | succ f' => exact ⟨f', rfl⟩
        simp only [rootGo, h1, h2]
      · have hget : (parent.set x (some rx))[i]? = parent[i]? :=
          List.getElem?_set_ne (fun hEq => hix hEq.symm)
        rcases hi : parent[i]? with _ | op
        · simp [rootGo, hi] at h
        · rcases op with _ | q
          · simp only [rootGo, hi] at h
            simp only [rootGo, hget, hi]
            exact h
          · simp only [rootGo, hi] at h
            simp only [rootGo, hget, hi]
            exact ih h

/-- Linking one root under another: every walk now ends at `large` instead of
`small`, and at its old root otherwise (one extra step of fuel suffices). -/
theorem rootGo_link (parent : List (Option Nat)) {small large : Nat}
    (hs : parent[small]? = some none) (hl : parent[large]? = some none)
    (hne : small ≠ large) :
    ∀ {fuel i r}, rootGo parent fuel i = some r →
      rootGo (parent.set small (some large)) (fuel + 1) i
        = some (if r = small then large else r) := by
  intro fuel
  induction fuel with
  | zero => intro i r h; exact Option.noConfusion h
  | succ fuel ih =>
      intro i r h
      rcases hi : parent[i]? with _ | op
      · simp [rootGo, hi] at h
      · rcases op with _ | q
        · simp only [rootGo, hi] at h
          simp at h
          subst h
          by_cases his : i = small
          · subst his
            have hlen : i < parent.length := lt_of_getElem? hs
            have h1 : (parent.set i (some large))[i]? = some (some large) :=
              List.getElem?_set_self hlen
            have h2 : (parent.set i (some large))[large]? = some none := by
              rw [List.getElem?_set_ne (fun hEq => hne hEq), hl]
            simp only [rootGo, h1, h2]
            simp
          · have h1 : (parent.set small (some large))[i]? = some none := by
              rw [List.getElem?_set_ne (fun hEq => his hEq.symm), hi]
            simp only [rootGo, h1, if_neg his]
        · have his : i ≠ small := by
            intro hEq
            rw [hEq, hs] at hi
            simp at hi
          simp only [rootGo, hi] at h
          have h1 : (parent.set small (some large))[i]? = some (some q) := by
            rw [List.getElem?_set_ne (fun hEq => his hEq.symm), hi]
          simp only [rootGo, h1]
          exact ih h

theorem countP_congr2 {α : Type _} (l : List α) {p q : α → Bool}
    (h : ∀ a ∈ l, p a = q a) : l.countP p = l.countP q := by
  induction l with
  | nil => rfl
  | cons a l ih =>
      rw [List.countP_cons, List.countP_cons, h a (by simp),
        ih fun b hb => h b (List.mem_cons_of_mem _ hb)]

theorem countP_or_disjoint {α : Type _} (l : List α) (p q : α → Bool)
    (h : ∀ a ∈ l, ¬(p a = true ∧ q a = true)) :
    l.countP (fun a => p a || q a) = l.countP p + l.countP q := by
  induction l with
  | nil => rfl
  | cons a l ih =>
      rw [List.countP_cons, List.countP_cons, List.countP_cons,
        ih fun b hb => h b (List.mem_cons_of_mem _ hb)]
      have hna := h a (by simp)
      by_cases hp : p a = true
      · by_cases hq : q a = true
        · exact absurd ⟨hp, hq⟩ hna
        · simp [hp, hq]
          omega
      · by_cases hq : q a = true
        · simp [hp, hq]
          omega
        · simp [hp, hq]

/-- Invariance of well-formedness under a change of representation that keeps
every walk's result, the root set and the sizes. -/
theorem wf_of_same_roots (u1 u2 : UnionFind) (hwf : u1.wf)
    (hlen : u2.parent.length = u1.parent.length) (hsz : u2.size = u1.size)
    (hroot : ∀ i, u2.root i = u1.root i)
    (hroots : ∀ j : Nat, u2.parent[j]? = some none ↔ u1.parent[j]? = some none) :
    u2.wf := by
  obtain ⟨hl, hsome, hcount⟩ := hwf
  refine ⟨by rw [hsz, hlen, hl], ?_, ?_⟩
  · intro i hi
    rw [hroot]
    exact hsome i (by omega)
  · intro rr hr hparent
    rw [hsz]
    have hc := hcount rr (by omega) ((hroots rr).mp hparent)
    rw [hc]
    show rootCount u1 rr = rootCount u2 rr
    rw [rootCount, rootCount, hlen]
    exact countP_congr2 _ fun i _ => by rw [hroot]

theorem rootOptGo_length {x : Nat} :
    ∀ {fuel parent c P r}, rootOptGo x fuel parent c = some (P, r) →
      P.length = parent.length := by
  intro fuel
  induction fuel with
  | zero => intro parent c P r h; exact Option.noConfusion h
  | succ fuel ih =>
      intro parent c P r h
      rcases hc : parent[c]? with _ | op
      · simp [rootOptGo, hc] at h
      · rcases op with _ | p
        · simp only [rootOptGo, hc] at h
          simp at h
          rw [← h.1]
        · simp only [rootOptGo, hc] at h
          have := ih h
          simpa using this

theorem rootOptGo_start_lt {x fuel : Nat} {parent : List (Option Nat)} {c : Nat}
    {P : List (Option Nat)} {r : Nat} (h : rootOptGo x fuel parent c = some (P, r)) :
    c < parent.length := by
  cases fuel with
  | zero => exact Option.noConfusion h
  | succ fuel =>
      rcases hc : parent[c]? with _ | op
      · simp [rootOptGo, hc] at h
      · exact lt_of_getElem? hc

/-- Effect of one `root_with_optimize` call on a well-formed state: returns
the true root, only `parent[x]` can change (to point at that root), and the
resulting state is well-formed with the same root assignment. -/
theorem compress_spec (u : UnionFind) (x : Nat) (hwf : u.wf)
    (hx : x < u.parent.length) :
    ∃ (P : List (Option Nat)) (r : Nat),
      rootOptGo x u.parent.length u.parent x = some (P, r) ∧
      u.root x = some r ∧
      P.length = u.parent.length ∧
      (∀ j : Nat, j ≠ x → P[j]? = u.parent[j]?) ∧
      (u.parent[x]? = some none → P = u.parent) ∧
      (u.parent[x]? ≠ some none → P[x]? = some (some r)) ∧
      (∀ j : Nat, P[j]? = some none ↔ u.parent[j]? = some none) ∧
      UnionFind.wf ⟨P, u.size⟩ ∧
      (∀ i, UnionFind.root ⟨P, u.size⟩ i = u.root i) := by
  obtain ⟨hl, hsome, hcount⟩ := hwf
  obtain ⟨r, hr⟩ := Option.isSome_iff_exists.mp (hsome x hx)
  obtain ⟨P, hopt, hPlen, hPne, hProot, hPnon⟩ := rootOptGo_spec u.parent hr
  have hxsome : u.parent[x]? = some (u.parent[x]) := List.getElem?_eq_getElem hx
  have hrootsame : ∀ i, rootGo P u.parent.length i = rootGo u.parent u.parent.length i := by
    intro i
    rcases hpx : u.parent[x]? with _ | op
    · rw [hpx] at hxsome; exact Option.noConfusion hxsome
    · rcases op with _ | p0
      · rw [hProot hpx]
      · rw [hPnon p0 hpx]
        rcases Nat.lt_or_ge i u.parent.length with hi | hi
        · obtain ⟨ri, hri⟩ := Option.isSome_iff_exists.mp (hsome i hi)
          have hri' : rootGo u.parent u.parent.length i = some ri := hri
          rw [hri']
          exact rootGo_set_root u.parent hpx hr hri'
        · rw [rootGo_oob (by simpa using hi), rootGo_oob (by omega)]
  have hiff : ∀ j : Nat, P[j]? = some none ↔ u.parent[j]? = some none := by
    intro j
    rcases hpx : u.parent[x]? with _ | op
    · rw [hpx] at hxsome; exact Option.noConfusion hxsome
    · rcases op with _ | p0
      · rw [hProot hpx]
      · rw [hPnon p0 hpx]
        rcases eq_or_ne j x with rfl | hj
        · rw [List.getElem?_set_self hx, hpx]
          constructor
          · intro hcontra; exact Option.noConfusion (Option.some_injective _ hcontra)
          · intro hcontra; exact Option.noConfusion (Option.some_injective _ hcontra)
        · rw [List.getElem?_set_ne (fun hEq => hj hEq.symm)]
  have hwf' : UnionFind.wf ⟨P, u.size⟩ := by
    refine wf_of_same_roots u ⟨P, u.size⟩ ⟨hl, hsome, hcount⟩ hPlen rfl ?_ hiff
    intro i
    show rootGo P P.length i = _
    rw [hPlen]
    exact hrootsame i
  refine ⟨P, r, hopt, hr, hPlen, hPne, hProot, ?_, hiff, hwf', ?_⟩
  · intro hnon
    rcases hpx : u.parent[x]? with _ | op
    · rw [hpx] at hxsome; exact Option.noConfusion hxsome
    · rcases op with _ | p0
      · exact absurd hpx hnon
      · rw [hPnon p0 hpx]
        exact List.getElem?_set_self hx
  · intro i
    show rootGo P P.length i = _
    rw [hPlen]
    exact hrootsame i

/-- Attaching the root `small` below the root `large` redirects exactly the
`small`-rooted elements to `large`, and the updated `size[large]` restores the
counting invariant. -/
theorem link_wf (u2 : UnionFind) (hwf2 : u2.wf) (small large : Nat)
    (hs : u2.parent[small]? = some none) (hl : u2.parent[large]? = some none)
    (hne : small ≠ large) :
    (∀ i ri, u2.root i = some ri →
      rootGo (u2.parent.set small (some large)) (u2.parent.set small (some large)).length i
        = some (if ri = small then large else ri)) ∧
    UnionFind.wf ⟨u2.parent.set small (some large),
      u2.size.set large (u2.size.getD large 0 + u2.size.getD small 0)⟩ := by
  obtain ⟨hl2, hsome2, hcount2⟩ := hwf2
  have hslt : small < u2.parent.length := lt_of_getElem? hs
  have hllt : large < u2.parent.length := lt_of_getElem? hl
  have hmap : ∀ i ri, u2.root i = some ri →
      rootGo (u2.parent.set small (some large)) (u2.parent.set small (some large)).length i
        = some (if ri = small then large else ri) := by
    intro i ri hri
    exact rootGo_shrink (rootGo_link u2.parent hs hl hne hri)
  refine ⟨hmap, by simp [hl2], ?_, ?_⟩
  · intro i hi
    simp only [List.length_set] at hi
    obtain ⟨ri, hri⟩ := Option.isSome_iff_exists.mp (hsome2 i hi)
    show (rootGo (u2.parent.set small (some large))
      (u2.parent.set small (some large)).length i).isSome = true
    rw [hmap i ri hri]
    rfl
  · intro rr hrr hparent
    simp only [List.length_set] at hrr
    have hrrs : rr ≠ small := by
      intro hEq
      subst hEq
      rw [List.getElem?_set_self (by omega)] at hparent
      simp at hparent
    rw [List.getElem?_set_ne (fun hEq => hrrs hEq.symm)] at hparent
    by_cases hrl : rr = large
    · subst hrl
      show (u2.size.set rr _).getD rr 0 = _
      rw [getD_set_eq _ _ _ _ (by omega)]
      have heq : rootCount ⟨u2.parent.set small (some rr),
          u2.size.set rr (u2.size.getD rr 0 + u2.size.getD small 0)⟩ rr
          = (List.range u2.parent.length).countP
              (fun i => (u2.root i == some small) || (u2.root i == some rr)) := by
        show (List.range (u2.parent.set small (some rr)).length).countP _ = _
        rw [List.length_set]
        refine countP_congr2 _ fun i hi => ?_
        have hilt : i < u2.parent.length := List.mem_range.mp hi
        obtain ⟨ri, hri⟩ := Option.isSome_iff_exists.mp (hsome2 i hilt)
        show (rootGo (u2.parent.set small (some rr))
          (u2.parent.set small (some rr)).length i == some rr) = _
        rw [hmap i ri hri, hri]
        rw [Bool.eq_iff_iff]
        simp only [beq_iff_eq, Bool.or_eq_true, Option.some.injEq]
        by_cases hris : ri = small
        · rw [if_pos hris]
          omega
        · rw [if_neg hris]
          omega
      rw [heq]
      rw [countP_or_disjoint _ _ _ ?_]
      · have c1 : (List.range u2.parent.length).countP (fun i => u2.root i == some small)
            = rootCount u2 small := rfl
        have c2 : (List.range u2.parent.length).countP (fun i => u2.root i == some rr)
            = rootCount u2 rr := rfl
        rw [c1, c2, hcount2 rr (by omega) hl, hcount2 small (by omega) hs]
        omega
      · intro i _ hand
        simp only [beq_iff_eq] at hand
        rw [hand.1] at hand
        have := hand.2
        simp at this
        exact hne this
    · show (u2.size.set large _).getD rr 0 = _
      rw [getD_set_ne _ _ _ (fun hEq => hrl hEq.symm)]
      rw [hcount2 rr (by omega) hparent]
      show rootCount u2 rr = _
      show _ = (List.range (u2.parent.set small (some large)).length).countP _
      rw [List.length_set]
      refine countP_congr2 _ fun i hi => ?_
      have hilt : i < u2.parent.length := List.mem_range.mp hi
      obtain ⟨ri, hri⟩ := Option.isSome_iff_exists.mp (hsome2 i hilt)
      show (u2.root i == some rr) = _
      rw [hri]
      show _ = (rootGo (u2.parent.set small (some large))
        (u2.parent.set small (some large)).length i == some rr)
      rw [hmap i ri hri]
      rw [Bool.eq_iff_iff]
      simp only [beq_iff_eq, Option.some.injEq]
      by_cases hris : ri = small
      · rw [if_pos hris]
        omega
      · rw [if_neg hris]

/-- Full behaviour of `union(x, y)` on a well-formed state with `x ≠ y` in
range: it returns `AlreadyUnified` and changes no root if `x` and `y` share a
root, and otherwise merges the smaller tree below the larger root and returns
`Unified`. -/
theorem union_spec (u : UnionFind) (x y : Nat) (hwf : u.wf)
    (hx : x < u.parent.length) (hy : y < u.parent.length) (hxy : x ≠ y) :
    ∃ rx ry : Nat, u.root x = some rx ∧ u.root y = some ry ∧
      ((rx = ry ∧ ∃ u2 : UnionFind, u.union x y = some (u2, .alreadyUnified) ∧ u2.wf ∧
          u2.size = u.size ∧ u2.parent.length = u.parent.length ∧
          (∀ i, u2.root i = u.root i)) ∨
       (rx ≠ ry ∧ ∃ (u' : UnionFind) (large small : Nat),
          u.union x y = some (u', .unified) ∧ u'.wf ∧
          ((large = rx ∧ small = ry) ∨ (large = ry ∧ small = rx)) ∧
          u'.parent.length = u.parent.length ∧
          (∀ i ri, u.root i = some ri →
            u'.root i = some (if ri = small then large else ri)) ∧
          u'.size[large]? = some (u.size.getD rx 0 + u.size.getD ry 0))) := by
  obtain ⟨P1, rx, hopt1, hrx, hP1len, _, _, _, hiff1, hwf1, hroot1⟩ := compress_spec u x hwf hx
  have hy1 : y < P1.length := by omega
  obtain ⟨P2, ry, hopt2, hry1, hP2len, _, _, _, hiff2, hwf2, hroot2⟩ :=
    compress_spec ⟨P1, u.size⟩ y hwf1 hy1
  have hry : u.root y = some ry := by rw [← hroot1 y]; exact hry1
  have hopt2' : rootOptGo y u.parent.length P1 y = some (P2, ry) := by
    rw [← hP1len]
    exact hopt2
  have hP2len' : P2.length = u.parent.length := by
    rw [hP2len]
    exact hP1len
  have hroot21 : ∀ i, UnionFind.root ⟨P2, u.size⟩ i = u.root i := by
    intro i
    rw [hroot2 i, hroot1 i]
  have hiff21 : ∀ j : Nat, P2[j]? = some none ↔ u.parent[j]? = some none := by
    intro j
    rw [hiff2 j, hiff1 j]
  refine ⟨rx, ry, hrx, hry, ?_⟩
  by_cases hrxy : rx = ry
  · left
    refine ⟨hrxy, ⟨P2, u.size⟩, ?_, hwf2, rfl, hP2len', hroot21⟩
    simp only [union, if_neg hxy, hopt1, hopt2', if_pos hrxy]
  · right
    have hrxlt : rx < u.parent.length := rootGo_root_lt hrx
    have hrylt : ry < u.parent.length := rootGo_root_lt hry
    have hszlen : u.size.length = u.parent.length := hwf.1
    have hsx : u.size[rx]? = some (u.size.getD rx 0) := by
      rw [List.getD_eq_getElem _ _ (by omega)]
      exact List.getElem?_eq_getElem (by omega)
    have hsy : u.size[ry]? = some (u.size.getD ry 0) := by
      rw [List.getD_eq_getElem _ _ (by omega)]
      exact List.getElem?_eq_getElem (by omega)
    have hrootP2x : P2[rx]? = some none :=
      (hiff21 rx).mpr (rootGo_isRoot u.parent hrx)
    have hrootP2y : P2[ry]? = some none :=
      (hiff21 ry).mpr (rootGo_isRoot u.parent hry)
    have hsz2 : (⟨P2, u.size⟩ : UnionFind).size = u.size := rfl
    by_cases hcmp : u.size.getD ry 0 ≤ u.size.getD rx 0
    · -- large = rx, small = ry
      obtain ⟨hmap, hwf'⟩ := link_wf ⟨P2, u.size⟩ hwf2 ry rx hrootP2y hrootP2x
        (fun hEq => hrxy hEq.symm)
      refine ⟨hrxy, ⟨P2.set ry (some rx),
        u.size.set rx (u.size.getD rx 0 + u.size.getD ry 0)⟩, rx, ry, ?_, hwf', Or.inl ⟨rfl, rfl⟩,
        by simpa using hP2len', ?_, ?_⟩
      · simp only [union, if_neg hxy, hopt1, hopt2', if_neg hrxy, hsx, hsy, if_pos hcmp]
      · intro i ri hri
        have hri2 : UnionFind.root ⟨P2, u.size⟩ i = some ri := by rw [hroot21 i]; exact hri
        exact hmap i ri hri2
      · show (u.size.set rx _)[rx]? = _
        rw [List.getElem?_set_self (by omega)]
    · -- large = ry, small = rx
      obtain ⟨hmap, hwf'⟩ := link_wf ⟨P2, u.size⟩ hwf2 rx ry hrootP2x hrootP2y hrxy
      refine ⟨hrxy, ⟨P2.set rx (some ry),
        u.size.set ry (u.size.getD ry 0 + u.size.getD rx 0)⟩, ry, rx, ?_, hwf', Or.inr ⟨rfl, rfl⟩,
        by simpa using hP2len', ?_, ?_⟩
      · simp only [union, if_neg hxy, hopt1, hopt2', if_neg hrxy, hsx, hsy, if_neg hcmp]
      · intro i ri hri
        have hri2 : UnionFind.root ⟨P2, u.size⟩ i = some ri := by rw [hroot21 i]; exact hri
        exact hmap i ri hri2
      · show (u.size.set ry _)[ry]? = _
        rw [List.getElem?_set_self (by omega)]
        rw [Nat.add_comm]

theorem getD_of_getElem? {α : Type _} {l : List α} {i : Nat} {a : α} (d : α)
    (h : l[i]? = some a) : l.getD i d = a := by
  rw [List.getD_eq_getD_get?, List.get?_eq_getElem?, h]
  rfl

theorem rootGo_new {n : Nat} {i : Nat} (hi : i < n) {fuel : Nat} (hf : 1 ≤ fuel) :
    rootGo (List.replicate n (none : Option Nat)) fuel i = some i := by
  obtain ⟨f', rfl⟩ : ∃ f', fuel = f' + 1 := ⟨fuel - 1, by omega⟩
  have hc : (List.replicate n (none : Option Nat))[i]? = some none := by
    simp [List.getElem?_replicate, hi]
  simp only [rootGo, hc]

/-- `UnionFind::new(n)` satisfies the forest invariant. -/
theorem wf_new (n : Nat) : (UnionFind.new n).wf := by
  refine ⟨by simp [new], ?_, ?_⟩
  · intro i hi
    simp only [new, List.length_replicate] at hi
    show (rootGo (List.replicate n none)
      (List.replicate n (none : Option Nat)).length i).isSome = true
    rw [List.length_replicate, rootGo_new hi (by omega)]
    rfl
  · intro r hr _
    simp only [new, List.length_replicate] at hr
    show (List.replicate n 1).getD r 0 = _
    rw [getD_replicate_lt _ _ hr]
    show _ = (List.range (List.replicate n (none : Option Nat)).length).countP _
    rw [List.length_replicate]
    have hcongr : ∀ i ∈ List.range n,
        ((UnionFind.new n).root i == some r) = (i == r) := by
      intro i hi
      have hilt : i < n := List.mem_range.mp hi
      show (rootGo (List.replicate n none) (List.replicate n (none : Option Nat)).length i
        == some r) = _
      rw [List.length_replicate, rootGo_new hilt (by omega)]
      rw [Bool.eq_iff_iff]
      simp
    rw [countP_congr2 _ hcongr]
    have : (List.range n).countP (fun i => i == r) = (List.range n).count r := rfl
    rw [this, List.count_eq_one_of_mem (List.nodup_range n) (List.mem_range.mpr hr)]

theorem rootOptGo_none_of_oob {x fuel : Nat} {parent : List (Option Nat)} {c : Nat}
    (h : parent.length ≤ c) : rootOptGo x fuel parent c = none := by
  cases fuel with
  | zero => rfl
  | succ fuel => simp [rootOptGo, List.getElem?_eq_none h]

/-- `union(x, x)` short-circuits before touching either array. -/
theorem union_self (u : UnionFind) (x : Nat) :
    u.union x x = some (u, .alreadyUnified) := by
  simp [union]

/-- `union(x, y)` with `x ≠ y` and `x` out of range panics (reading
`parent[x]`). -/
theorem union_oob (u : UnionFind) (x y : Nat) (hxy : x ≠ y)
    (hx : u.parent.length ≤ x) : u.union x y = none := by
  simp only [union, if_neg hxy, rootOptGo_none_of_oob hx]

theorem root_oob (u : UnionFind) (x : Nat) (hx : u.parent.length ≤ x) :
    u.root x = none := rootGo_oob hx

theorem equiv_oob_left (u : UnionFind) (x y : Nat) (hx : u.parent.length ≤ x) :
    u.equiv x y = none := by
  simp [equiv, root_oob u x hx]

theorem sizeOfElem_oob (u : UnionFind) (x : Nat) (hx : u.size.length ≤ x) :
    u.sizeOfElem x = none := by
  simp [sizeOfElem, List.getElem?_eq_none hx]

end UnionFind
theorem SegmentTree.foldl_update_sentry {T : Type} (f : T → T → T) (us : List (Nat × T))
    (t : SegmentTree T) :
    (us.foldl (fun tt p => SegmentTree.update f tt p.1 p.2) t).sentry = t.sentry := by
  induction us generalizing t with
  | nil => rfl
  | cons p ps ih => rw [List.foldl_cons, ih]; rfl

/-! ## The claims -/

/-- C1, counterexample to the claim as stated.  On the well-formed state with
parent chain `0 → 1 → 2 → 3`, the root search of `union(0, 3)` walks through
the nodes `0, 1, 2` (as the recorded path shows), yet afterwards node `1`'s
parent pointer is unchanged: it still holds `some 2`, node `1`'s parent —
not its grandparent-or-beyond ancestor `3`.  Only the starting node `0` was
rewritten (to `some 3`). -/
theorem claim_C1_counterexample :
    UnionFind.wf ⟨[some 1, some 2, some 3, none], [1, 1, 1, 4]⟩ ∧
    UnionFind.pathGo [some 1, some 2, some 3, none] 4 0 = some [0, 1, 2, 3] ∧
    UnionFind.union ⟨[some 1, some 2, some 3, none], [1, 1, 1, 4]⟩ 0 3
      = some (⟨[some 3, some 2, some 3, none], [1, 1, 1, 4]⟩, .alreadyUnified) ∧
    ([some 3, some 2, some 3, none] : List (Option Nat)).getD 1 none = some 2 ∧
    ([some 1, some 2, some 3, none] : List (Option Nat)).getD 1 none = some 2 := by
  decide

/-- C1 (amended): during `union`'s root search from `x`, compression applies
only to the walk's starting node: every iteration rewrites `parent[x]` to the
current node's parent, so the search returns the true root `r` of `x` and
afterwards `parent[x] = Some(r)` (unless `x` was already a root, in which
case nothing changes); the parent pointer of every other node — including the
intermediate visited ones — is untouched. -/
theorem claim_C1 (u : UnionFind) (x : Nat) (hwf : u.wf) (hx : x < u.parent.length) :
    ∃ (P : List (Option Nat)) (r : Nat),
      UnionFind.rootOptGo x u.parent.length u.parent x = some (P, r) ∧
      u.root x = some r ∧
      (∀ j : Nat, j ≠ x → P[j]? = u.parent[j]?) ∧
      (u.parent[x]? = some none → P = u.parent) ∧
      (u.parent[x]? ≠ some none → P[x]? = some (some r)) := by
  obtain ⟨P, r, h1, h2, _, h4, h5, h6, _, _, _⟩ := UnionFind.compress_spec u x hwf hx
  exact ⟨P, r, h1, h2, h4, h5, h6⟩

/-- Witness for C1 at the concrete state `parent = [some 1, none]`. -/
theorem claim_C1_witness :
    UnionFind.wf ⟨[some 1, none], [1, 2]⟩ ∧
    (∃ (P : List (Option Nat)) (r : Nat),
      UnionFind.rootOptGo 0 (UnionFind.mk [some 1, none] [1, 2]).parent.length
        (UnionFind.mk [some 1, none] [1, 2]).parent 0 = some (P, r) ∧
      (UnionFind.mk [some 1, none] [1, 2]).root 0 = some r ∧
      (∀ j : Nat, j ≠ 0 → P[j]? = (UnionFind.mk [some 1, none] [1, 2]).parent[j]?) ∧
      ((UnionFind.mk [some 1, none] [1, 2]).parent[0]? = some none →
        P = (UnionFind.mk [some 1, none] [1, 2]).parent) ∧
      ((UnionFind.mk [some 1, none] [1, 2]).parent[0]? ≠ some none →
        P[0]? = some (some r))) :=
  ⟨by decide, claim_C1 ⟨[some 1, none], [1, 2]⟩ 0 (by decide) (by decide)⟩

/-- C3: `new n` establishes the forest invariant, and whenever `union`
returns a state (it returns `none` exactly when the Rust code would panic),
that state again satisfies the invariant.  The remaining operations (`equiv`,
`root`, `size`) take `&self` and are modelled as pure functions, so they
cannot alter the structure. -/
theorem claim_C3 :
    (∀ n : Nat, (UnionFind.new n).wf) ∧
    (∀ (u : UnionFind) (x y : Nat) (u' : UnionFind) (res : UnionResult),
      u.wf → u.union x y = some (u', res) → u'.wf) := by
  refine ⟨UnionFind.wf_new, ?_⟩
  intro u x y u' res hwf h
  by_cases hxy : x = y
  · subst hxy
    rw [UnionFind.union_self] at h
    simp only [Option.some.injEq, Prod.mk.injEq] at h
    rw [← h.1]
    exact hwf
  · rcases ho1 : UnionFind.rootOptGo x u.parent.length u.parent x with _ | ⟨P1, rx0⟩
    · rw [UnionFind.union, if_neg hxy, ho1] at h
      exact Option.noConfusion h
    · have hx : x < u.parent.length := UnionFind.rootOptGo_start_lt ho1
      rcases ho2 : UnionFind.rootOptGo y u.parent.length P1 y with _ | ⟨P2, ry0⟩
      · simp only [UnionFind.union, if_neg hxy, ho1, ho2] at h
        exact Option.noConfusion h
      · have hy : y < u.parent.length := by
          have h1 := UnionFind.rootOptGo_start_lt ho2
          have h2 := UnionFind.rootOptGo_length ho1
          omega
        obtain ⟨rx, ry, hrx, hry, hcase⟩ := UnionFind.union_spec u x y hwf hx hy hxy
        rcases hcase with ⟨hEq, u2, hu2, hwf2, _⟩ | ⟨hne, u2, large, small, hu2, hwf2, _⟩ <;>
          · rw [hu2] at h
            simp only [Option.some.injEq, Prod.mk.injEq] at h
            rw [← h.1]
            exact hwf2

/-- Witness for C3: the invariant after `new 2` and after `union(0, 1)`. -/
theorem claim_C3_witness :
    (UnionFind.new 2).wf ∧ UnionFind.wf ⟨[none, some 0], [2, 1]⟩ :=
  ⟨claim_C3.1 2,
    claim_C3.2 (UnionFind.new 2) 0 1 ⟨[none, some 0], [2, 1]⟩ .unified (by decide) (by decide)⟩

/-- C5: on a well-formed state, for in-range `x`, `y` in distinct sets,
`union(x, y)` returns `Unified`, afterwards `equiv(x, y)` holds, and the size
stored at the new root of `x` is the sum of the two old set sizes. -/
theorem claim_C5 (u : UnionFind) (x y : Nat) (hwf : u.wf)
    (hx : x < u.parent.length) (hy : y < u.parent.length)
    (rx ry sx sy : Nat) (hrx : u.root x = some rx) (hry : u.root y = some ry)
    (hne : rx ≠ ry) (hsx : u.sizeOfElem rx = some sx) (hsy : u.sizeOfElem ry = some sy) :
    ∃ u' : UnionFind, u.union x y = some (u', .unified) ∧
      u'.equiv x y = some true ∧
      ∃ R : Nat, u'.root x = some R ∧ u'.sizeOfElem R = some (sx + sy) := by
  have hxy : x ≠ y := by
    intro hEq
    subst hEq
    rw [hrx] at hry
    exact hne (Option.some_injective _ hry)
  obtain ⟨rx', ry', hrx', hry', hcase⟩ := UnionFind.union_spec u x y hwf hx hy hxy
  rw [hrx] at hrx'
  rw [hry] at hry'
  have hrxx : rx = rx' := Option.some_injective _ hrx'
  have hryy : ry = ry' := Option.some_injective _ hry'
  subst hrxx
  subst hryy
  rcases hcase with ⟨hEq, _⟩ | ⟨_, u', large, small, hu', hwf', hls, hlen', hmap, hsize⟩
  · exact absurd hEq hne
  · have hux : u'.root x = some large := by
      rw [hmap x rx hrx]
      rcases hls with ⟨hl1, hs1⟩ | ⟨hl2, hs2⟩
      · rw [if_neg (by omega), hl1]
      · rw [if_pos (by omega)]
    have huy : u'.root y = some large := by
      rw [hmap y ry hry]
      rcases hls with ⟨hl1, hs1⟩ | ⟨hl2, hs2⟩
      · rw [if_pos (by omega)]
      · rw [if_neg (by omega), hl2]
    refine ⟨u', hu', ?_, large, hux, ?_⟩
    · simp [UnionFind.equiv, hux, huy]
    · show u'.size[large]? = _
      rw [hsize, UnionFind.getD_of_getElem? 0 hsx, UnionFind.getD_of_getElem? 0 hsy]

/-- Witness for C5 on two fresh singletons. -/
theorem claim_C5_witness :
    UnionFind.wf ⟨[none, none], [1, 1]⟩ ∧
    (∃ u' : UnionFind, UnionFind.union ⟨[none, none], [1, 1]⟩ 0 1 = some (u', .unified) ∧
      u'.equiv 0 1 = some true ∧
      ∃ R : Nat, u'.root 0 = some R ∧ u'.sizeOfElem R = some (1 + 1)) :=
  ⟨by decide, claim_C5 ⟨[none, none], [1, 1]⟩ 0 1 (by decide) (by decide) (by decide)
    0 1 1 1 (by decide) (by decide) (by decide) (by decide) (by decide)⟩

/-- C6: `union(x, y)` returns `AlreadyUnified` iff `x = y` or the two share a
root (otherwise `Unified`); `union(x, x)` always returns `AlreadyUnified`
with the state unchanged; and on previously distinct sets two successive
calls yield `Unified` then `AlreadyUnified`. -/
theorem claim_C6 :
    (∀ (u : UnionFind) (x : Nat), u.union x x = some (u, .alreadyUnified)) ∧
    (∀ (u : UnionFind) (x y : Nat), u.wf → x < u.parent.length → y < u.parent.length →
      x ≠ y → ((∃ u2 : UnionFind, u.union x y = some (u2, .alreadyUnified)) ↔
        u.root x = u.root y)) ∧
    (∀ (u : UnionFind) (x y : Nat), u.wf → x < u.parent.length → y < u.parent.length →
      x ≠ y → u.root x ≠ u.root y →
      ∃ u1 u2 : UnionFind, u.union x y = some (u1, .unified) ∧
        u1.union x y = some (u2, .alreadyUnified)) := by
  refine ⟨UnionFind.union_self, ?_, ?_⟩
  · intro u x y hwf hx hy hxy
    obtain ⟨rx, ry, hrx, hry, hcase⟩ := UnionFind.union_spec u x y hwf hx hy hxy
    constructor
    · rintro ⟨u2, hu2⟩
      rcases hcase with ⟨hEq, _⟩ | ⟨hne, u', large, small, hu', _⟩
      · rw [hrx, hry, hEq]
      · rw [hu'] at hu2
        simp only [Option.some.injEq, Prod.mk.injEq] at hu2
        exact absurd hu2.2 (fun hcon => UnionResult.noConfusion hcon)
    · intro hroots
      rcases hcase with ⟨hEq, u2, hu2, _⟩ | ⟨hne, _⟩
      · exact ⟨u2, hu2⟩
      · rw [hrx, hry] at hroots
        exact absurd (Option.some_injective _ hroots) hne
  · intro u x y hwf hx hy hxy hroots
    obtain ⟨rx, ry, hrx, hry, hcase⟩ := UnionFind.union_spec u x y hwf hx hy hxy
    rcases hcase with ⟨hEq, _⟩ | ⟨hne, u1, large, small, hu1, hwf1, hls, hlen1, hmap, _⟩
    · rw [hrx, hry, hEq] at hroots
      exact absurd rfl hroots
    · have hux : u1.root x = some large := by
        rw [hmap x rx hrx]
        rcases hls with ⟨hl1, hs1⟩ | ⟨hl2, hs2⟩
        · rw [if_neg (by omega), hl1]
        · rw [if_pos (by omega)]
      have huy : u1.root y = some large := by
        rw [hmap y ry hry]
        rcases hls with ⟨hl1, hs1⟩ | ⟨hl2, hs2⟩
        · rw [if_pos (by omega)]
        · rw [if_neg (by omega), hl2]
      obtain ⟨rx2, ry2, hrx2, hry2, hcase2⟩ := UnionFind.union_spec u1 x y hwf1
        (by omega) (by omega) hxy
      rw [hux] at hrx2
      rw [huy] at hry2
      have e1 : large = rx2 := Option.some_injective _ hrx2
      have e2 : large = ry2 := Option.some_injective _ hry2
      rcases hcase2 with ⟨hEq2, u2, hu2, _⟩ | ⟨hne2, _⟩
      · exact ⟨u1, u2, hu1, hu2⟩
      · exact absurd (by omega) hne2

/-- Witness for C6 on two fresh singletons. -/
theorem claim_C6_witness :
    UnionFind.union ⟨[none, none], [1, 1]⟩ 5 5
      = some (⟨[none, none], [1, 1]⟩, .alreadyUnified) ∧
    ((∃ u2 : UnionFind, UnionFind.union ⟨[none, none], [1, 1]⟩ 0 1
        = some (u2, .alreadyUnified)) ↔
      UnionFind.root ⟨[none, none], [1, 1]⟩ 0 = UnionFind.root ⟨[none, none], [1, 1]⟩ 1) ∧
    (∃ u1 u2 : UnionFind, UnionFind.union ⟨[none, none], [1, 1]⟩ 0 1
        = some (u1, .unified) ∧ u1.union 0 1 = some (u2, .alreadyUnified)) :=
  ⟨claim_C6.1 ⟨[none, none], [1, 1]⟩ 5,
   claim_C6.2.1 ⟨[none, none], [1, 1]⟩ 0 1 (by decide) (by decide) (by decide) (by decide),
   claim_C6.2.2 ⟨[none, none], [1, 1]⟩ 0 1 (by decide) (by decide) (by decide) (by decide)
     (by decide)⟩

/-- C9: `union(x, x)` short-circuits on the `x == y` test before reading or
writing `parent` or `size`, so it succeeds unchanged even for out-of-range
`x`; by contrast `root`, `equiv`, `size` and `union(x, y)` with `x ≠ y` all
panic (modelled as `none`) on an out-of-range index. -/
theorem claim_C9 :
    (∀ (u : UnionFind) (x : Nat), u.union x x = some (u, .alreadyUnified)) ∧
    (∀ (u : UnionFind) (x : Nat), u.parent.length ≤ x → u.root x = none) ∧
    (∀ (u : UnionFind) (x y : Nat), u.parent.length ≤ x → u.equiv x y = none) ∧
    (∀ (u : UnionFind) (x : Nat), u.size.length ≤ x → u.sizeOfElem x = none) ∧
    (∀ (u : UnionFind) (x y : Nat), x ≠ y → u.parent.length ≤ x → u.union x y = none) :=
  ⟨UnionFind.union_self, UnionFind.root_oob, UnionFind.equiv_oob_left,
    UnionFind.sizeOfElem_oob, UnionFind.union_oob⟩

/-- Witness for C9 with a one-element structure and the out-of-range index 7. -/
theorem claim_C9_witness :
    UnionFind.union ⟨[none], [1]⟩ 7 7 = some (⟨[none], [1]⟩, .alreadyUnified) ∧
    UnionFind.root ⟨[none], [1]⟩ 7 = none ∧
    UnionFind.equiv ⟨[none], [1]⟩ 7 0 = none ∧
    UnionFind.sizeOfElem ⟨[none], [1]⟩ 7 = none ∧
    UnionFind.union ⟨[none], [1]⟩ 7 0 = none :=
  ⟨claim_C9.1 ⟨[none], [1]⟩ 7, claim_C9.2.1 ⟨[none], [1]⟩ 7 (by decide),
   claim_C9.2.2.1 ⟨[none], [1]⟩ 7 0 (by decide), claim_C9.2.2.2.1 ⟨[none], [1]⟩ 7 (by decide),
   claim_C9.2.2.2.2 ⟨[none], [1]⟩ 7 0 (by decide) (by decide)⟩

/-- C2, counterexample to the claim as stated.  With the associative combine
`Nat.add` and `init = 1`, `from_vec([0,0,0,0,0])` differs from
`new(5) + update(i, 0) for i = 0..4`: the padded tree has an internal node
(index 7, covering only padding leaves) that `from_vec` sets to
`init + init = 2` but that the update path never recomputes, so it stays
`init = 1`; queries touching that node (e.g. `query(6..8)`) disagree. -/
theorem claim_C2_counterexample :
    SegmentTree.fromVec [0, 0, 0, 0, 0] 1 Nat.add
      ≠ SegmentTree.buildByUpdates [0, 0, 0, 0, 0] 1 Nat.add ∧
    SegmentTree.query Nat.add (SegmentTree.fromVec [0, 0, 0, 0, 0] 1 Nat.add) 6 8
      ≠ SegmentTree.query Nat.add (SegmentTree.buildByUpdates [0, 0, 0, 0, 0] 1 Nat.add) 6 8 := by
  refine ⟨by decide, by decide⟩

/-- C2 (amended): for every input sequence, every `init` and every combine
`f` with `f init init = init` (associativity is not even needed), the tree
built by `from_vec` is identical — same `size`, `buf` and `sentry` — to the
tree built by `new` followed by `update(i, values[i])` for each `i` in
order. -/
theorem claim_C2 (T : Type) (values : List T) (init : T) (f : T → T → T)
    (hf : f init init = init) :
    SegmentTree.fromVec values init f = SegmentTree.buildByUpdates values init f :=
  SegmentTree.fromVec_eq_buildByUpdates values init f hf

/-- Witness for C2 with XOR and zero padding. -/
theorem claim_C2_witness :
    Nat.xor 0 0 = 0 ∧
    SegmentTree.fromVec [3, 5, 7] 0 Nat.xor = SegmentTree.buildByUpdates [3, 5, 7] 0 Nat.xor :=
  ⟨by decide, claim_C2 Nat [3, 5, 7] 0 Nat.xor (by decide)⟩

/-- C4, counterexample to the claim as stated: immediately after construction
by `new(2, 1, +)` the internal node `1` holds `1` while its children combine
to `1 + 1 = 2`, so the invariant `node[i] = combine(node[2i], node[2i+1])`
does not hold after `new` (the claim includes construction by `new`). -/
theorem claim_C4_counterexample :
    ¬ SegmentTree.nodeInv Nat.add (SegmentTree.new 2 1) := by decide

/-- C4 (amended): the node invariant holds after `from_vec`
unconditionally; after `new` provided `combine(init, init) = init`; and
`update(index, value)` with an in-range index preserves it, restoring the
combine equation along the leaf-to-root path. -/
theorem claim_C4 (T : Type) :
    (∀ (values : List T) (init : T) (f : T → T → T),
      SegmentTree.nodeInv f (SegmentTree.fromVec values init f)) ∧
    (∀ (sz : Nat) (init : T) (f : T → T → T), f init init = init →
      SegmentTree.nodeInv f (SegmentTree.new sz init)) ∧
    (∀ (f : T → T → T) (t : SegmentTree T) (index : Nat) (value : T),
      SegmentTree.nodeInv f t → index < t.size → t.buf.length = 2 * t.size →
      SegmentTree.nodeInv f (SegmentTree.update f t index value)) :=
  ⟨SegmentTree.fromVec_nodeInv,
   fun sz init f h => SegmentTree.new_nodeInv sz init f h,
   fun f t index value h1 h2 h3 => SegmentTree.update_nodeInv f t index value h1 h2 h3⟩

/-- Witness for C4 on concrete trees. -/
theorem claim_C4_witness :
    SegmentTree.nodeInv Nat.xor (SegmentTree.fromVec [3, 1, 2] 0 Nat.xor) ∧
    SegmentTree.nodeInv Nat.add (SegmentTree.new 2 0) ∧
    SegmentTree.nodeInv Nat.xor
      (SegmentTree.update Nat.xor (SegmentTree.fromVec [3, 1, 2] 0 Nat.xor) 1 7) :=
  ⟨(claim_C4 Nat).1 [3, 1, 2] 0 Nat.xor,
   (claim_C4 Nat).2.1 2 0 Nat.add (by decide),
   (claim_C4 Nat).2.2 Nat.xor (SegmentTree.fromVec [3, 1, 2] 0 Nat.xor) 1 7
     (by decide) (by decide) (by decide)⟩

/-- C7: with combine `XOR` and `init = 0`, the full-range query on
`from_vec values` is the XOR-fold of all the values; more generally
`query(start..stop)` folds exactly the leaves of the half-open window; and
`query(i..i+1)` equals `get(i)` after any sequence of updates. -/
theorem claim_C7 :
    (∀ values : List Nat,
      SegmentTree.query Nat.xor (SegmentTree.fromVec values 0 Nat.xor) 0 values.length
        = SegmentTree.listXor values) ∧
    (∀ (values : List Nat) (start stop : Nat), start ≤ stop →
      stop ≤ nextPow2 values.length →
      SegmentTree.query Nat.xor (SegmentTree.fromVec values 0 Nat.xor) start stop
        = SegmentTree.listXor
            ((List.range (stop - start)).map (fun k => values.getD (start + k) 0))) ∧
    (∀ (values : List Nat) (us : List (Nat × Nat)) (i : Nat),
      SegmentTree.query Nat.xor
          (us.foldl (fun tt p => SegmentTree.update Nat.xor tt p.1 p.2)
            (SegmentTree.fromVec values 0 Nat.xor)) i (i + 1)
        = SegmentTree.get
            (us.foldl (fun tt p => SegmentTree.update Nat.xor tt p.1 p.2)
              (SegmentTree.fromVec values 0 Nat.xor)) i) := by
  refine ⟨SegmentTree.fromVec_query_all, SegmentTree.fromVec_query_range, ?_⟩
  intro values us i
  set t := us.foldl (fun tt p => SegmentTree.update Nat.xor tt p.1 p.2)
    (SegmentTree.fromVec values 0 Nat.xor) with ht
  have hs : t.sentry = 0 := by
    rw [ht, SegmentTree.foldl_update_sentry]
    rfl
  rw [SegmentTree.query_single, hs, SegmentTree.natZero_xor]
  simp [SegmentTree.get, hs]

/-- Witness for C7 on concrete trees and updates. -/
theorem claim_C7_witness :
    SegmentTree.query Nat.xor (SegmentTree.fromVec [3, 1, 4, 1] 0 Nat.xor) 0 4
      = SegmentTree.listXor [3, 1, 4, 1] ∧
    (1 ≤ 3 ∧ 3 ≤ nextPow2 4) ∧
    SegmentTree.query Nat.xor (SegmentTree.fromVec [3, 1, 4, 1] 0 Nat.xor) 1 3
      = SegmentTree.listXor
          ((List.range (3 - 1)).map (fun k => [3, 1, 4, 1].getD (1 + k) 0)) ∧
    SegmentTree.query Nat.xor
        ([(0, 5)].foldl (fun tt p => SegmentTree.update Nat.xor tt p.1 p.2)
          (SegmentTree.fromVec [3, 1, 4] 0 Nat.xor)) 2 3
      = SegmentTree.get
          ([(0, 5)].foldl (fun tt p => SegmentTree.update Nat.xor tt p.1 p.2)
            (SegmentTree.fromVec [3, 1, 4] 0 Nat.xor)) 2 :=
  ⟨claim_C7.1 [3, 1, 4, 1], ⟨by decide, by decide⟩,
   claim_C7.2.1 [3, 1, 4, 1] 1 3 (by decide) (by decide),
   claim_C7.2.2 [3, 1, 4] [(0, 5)] 2⟩

/-- C8: for any tree, any combine and any in-range `a`, the empty-range query
`query(a..a)` returns the sentry (`init` for trees built by `new` or
`from_vec`) — the loop exits immediately, so the combine is never invoked
(the result does not depend on `f` at all). -/
theorem claim_C8 (T : Type) :
    (∀ (t : SegmentTree T) (f : T → T → T) (a : Nat), a ≤ t.size →
      SegmentTree.query f t a a = t.sentry) ∧
    (∀ (sz : Nat) (init : T) (f : T → T → T) (a : Nat), a ≤ nextPow2 sz →
      SegmentTree.query f (SegmentTree.new sz init) a a = init) ∧
    (∀ (values : List T) (init : T) (f : T → T → T) (a : Nat),
      a ≤ nextPow2 values.length →
      SegmentTree.query f (SegmentTree.fromVec values init f) a a = init) :=
  ⟨fun t f a _ => SegmentTree.query_empty f t a,
   fun _ _ f a _ => SegmentTree.query_empty f _ a,
   fun _ _ f a _ => SegmentTree.query_empty f _ a⟩

/-- Witness for C8 on a concrete tree. -/
theorem claim_C8_witness :
    2 ≤ (SegmentTree.fromVec [5, 6, 7] 0 Nat.xor).size ∧
    SegmentTree.query Nat.xor (SegmentTree.fromVec [5, 6, 7] 0 Nat.xor) 2 2
      = (SegmentTree.fromVec [5, 6, 7] 0 Nat.xor).sentry :=
  ⟨by decide, (claim_C8 Nat).1 (SegmentTree.fromVec [5, 6, 7] 0 Nat.xor) Nat.xor 2 (by decide)⟩

/-- C10: `update(index, value)` touches only the leaf `index` and its
ancestors: `get(j)` is unchanged for every other in-range position `j`, and
`query` over any window not containing `index` is unchanged, for every
combine function. -/
theorem claim_C10 (T : Type) (f : T → T → T) (t : SegmentTree T) (index : Nat) (value : T)
    (hidx : index < t.size) (_hlen : t.buf.length = 2 * t.size) :
    (∀ j : Nat, j < t.size → j ≠ index →
      SegmentTree.get (SegmentTree.update f t index value) j = SegmentTree.get t j) ∧
    (∀ l r : Nat, r ≤ t.size → (index < l ∨ r ≤ index) →
      SegmentTree.query f (SegmentTree.update f t index value) l r
        = SegmentTree.query f t l r) :=
  ⟨fun j _ hne => SegmentTree.update_get_ne f t index value j hidx hne,
   fun l r hr hout => SegmentTree.update_query_frame f t index value hidx l r hr hout⟩

/-- Witness for C10: updating index 1 leaves `get 0` and `query(2..3)`
unchanged. -/
theorem claim_C10_witness :
    1 < (SegmentTree.fromVec [1, 2, 3] 0 Nat.xor).size ∧
    SegmentTree.get
        (SegmentTree.update Nat.xor (SegmentTree.fromVec [1, 2, 3] 0 Nat.xor) 1 9) 0
      = SegmentTree.get (SegmentTree.fromVec [1, 2, 3] 0 Nat.xor) 0 ∧
    SegmentTree.query Nat.xor
        (SegmentTree.update Nat.xor (SegmentTree.fromVec [1, 2, 3] 0 Nat.xor) 1 9) 2 3
      = SegmentTree.query Nat.xor (SegmentTree.fromVec [1, 2, 3] 0 Nat.xor) 2 3 :=
  ⟨by decide,
   (claim_C10 Nat Nat.xor (SegmentTree.fromVec [1, 2, 3] 0 Nat.xor) 1 9
     (by decide) (by decide)).1 0 (by decide) (by decide),
   (claim_C10 Nat Nat.xor (SegmentTree.fromVec [1, 2, 3] 0 Nat.xor) 1 9
     (by decide) (by decide)).2 2 3 (by decide) (by decide)⟩
